import Mathlib

/-!
# Verification of the Clipmaker timeline composition & rendering engine

Shallow embedding, in Lean 4, of the parts of the Clipmaker repository that
the specification's testable properties talk about:

* the time-parsing utilities (`_parse_time` in `app/services/story_service.py`
  and `app/services/render_service.py` — the two copies are textually identical
  and are embedded once as `parse_time`), and the SRT time conversions of
  `app/services/subtitle_service.py`;
* the rhythmic timing normalizer `StoryboardService._normalize_segments`;
* the Ken Burns crop computation of `RenderService._apply_effect`;
* clip creation/concatenation of `RenderService._create_clips` and the
  persistence ordering of `RenderService.render`;
* the subtitle layout/karaoke renderer `RenderService._layout_text` and
  `RenderService._render_layout`.

Python floats are modelled as exact rationals (`ℚ`); Python `int()` truncation,
floor division `//`, float `%`, and banker's `round()` are modelled explicitly.
Python strings are modelled as `String` / `List Char`.  `float(s)` is modelled
in two layers: `parsePyFloat` gives the exact value of finite decimal/exponent
literals (optional surrounding whitespace, sign, digits with optional dot and
digit-group underscores, optional exponent), and `float_accepts` decides
whether `float(s)` succeeds at all, additionally recognising the
`inf`/`infinity`/`nan` spellings (whose IEEE values are nonfinite, hence
outside the rational embedding) and conservatively treating fields containing
non-ASCII characters (CPython also accepts Unicode decimal digits and Unicode
whitespace) as possibly numeric.  The one float operation of
`seconds_to_srt_time` whose result can be inexact, the millisecond
multiplication, goes through `roundDouble`, rounding to 53 significant bits
as IEEE-754 binary64 does.
-/

set_option linter.unusedVariables false

namespace Clipmaker

/-- Python `int(x)` on a float: truncation toward zero. -/
def pyInt (x : ℚ) : ℤ := if 0 ≤ x then ⌊x⌋ else ⌈x⌉

/-- Python float floor division `a // b` (result is a float in Python). -/
def pyFloorDiv (a b : ℚ) : ℚ := (⌊a / b⌋ : ℤ)

/-- Python float modulo `a % b` for `b > 0`: `a - b * ⌊a / b⌋`. -/
def pyMod (a b : ℚ) : ℚ := a - b * ⌊a / b⌋

/-- Python `round(x)`: round half to even (banker's rounding). -/
def pyRound (x : ℚ) : ℤ :=
  let f := ⌊x⌋
  let r := x - f
  if r < 1/2 then f
  else if 1/2 < r then f + 1
  else if f % 2 = 0 then f else f + 1

/-! ## Character-level string utilities (Python `str.strip`, `str.split`, `float`) -/

/-- The whitespace characters stripped by `str.strip()` / accepted by `float`. -/
def pyWs (c : Char) : Bool :=
  c = ' ' || c = '\t' || c = '\n' || c = '\r' || c = '\x0b' || c = '\x0c'

/-- Drop leading whitespace. -/
def dropWs (l : List Char) : List Char := l.dropWhile pyWs

/-- Drop trailing whitespace. -/
def dropTrailWs : List Char → List Char
  | [] => []
  | c :: cs =>
    match dropTrailWs cs with
    | [] => if pyWs c then [] else [c]
    | r => c :: r

/-- Python `str.strip()`. -/
def pyStrip (l : List Char) : List Char := dropTrailWs (dropWs l)

/-- Python `s.split(":")`: split on every colon, keeping empty fields. -/
def splitColon : List Char → List (List Char)
  | [] => [[]]
  | c :: cs =>
    if c = ':' then [] :: splitColon cs
    else
      match splitColon cs with
      | [] => [[c]]
      | f :: fs => (c :: f) :: fs

/-- Python `s.replace(",", ".")` (single-character replacement). -/
def commaToDot (l : List Char) : List Char :=
  l.map (fun c => if c = ',' then '.' else c)

def isDigitCh (c : Char) : Bool := '0' ≤ c && c ≤ '9'

def digitVal (c : Char) : ℕ := c.toNat - 48

/-- Read a maximal run of decimal digits, allowing the single underscores
between digits that CPython permits as digit grouping (PEP 515: an underscore
must be preceded and followed by a digit); returns (value, digit count, rest). -/
def readDigits (acc : ℕ) (cnt : ℕ) : List Char → ℕ × ℕ × List Char
  | [] => (acc, cnt, [])
  | '_' :: c :: cs =>
    if cnt ≠ 0 ∧ isDigitCh c then readDigits (acc * 10 + digitVal c) (cnt + 1) cs
    else (acc, cnt, '_' :: c :: cs)
  | c :: cs =>
    if isDigitCh c then readDigits (acc * 10 + digitVal c) (cnt + 1) cs
    else (acc, cnt, c :: cs)

/-- The syntactic shape of a Python finite float literal: negative sign flag,
integer-part value, fraction-part value, fraction digit count, exponent. -/
structure FloatLit where
  neg : Bool
  ip : ℕ
  fp : ℕ
  fc : ℕ
  ex : ℤ
  deriving DecidableEq, Repr

/-- Syntax stage of Python `float(s)` for finite decimal literals: optional
surrounding whitespace, optional sign, `digits[.digits]` or `.digits`
(with PEP 515 digit-group underscores), optional exponent.  Returns `none`
otherwise; the `inf`/`nan` spellings `float()` also accepts are recognised
separately by `pyFloatSpecial`. -/
def pyFloatSyntax (l0 : List Char) : Option FloatLit :=
  let l1 := pyStrip l0
  let sgn : Bool × List Char :=
    match l1 with
    | '+' :: r => (false, r)
    | '-' :: r => (true, r)
    | r => (false, r)
  let ip := readDigits 0 0 sgn.2
  let fp : ℕ × ℕ × List Char :=
    match ip.2.2 with
    | '.' :: r => readDigits 0 0 r
    | r => (0, 0, r)
  if ip.2.1 = 0 ∧ fp.2.1 = 0 then none
  else
    match fp.2.2 with
    | [] => some ⟨sgn.1, ip.1, fp.1, fp.2.1, 0⟩
    | e :: r =>
      if e = 'e' ∨ e = 'E' then
        let es : Bool × List Char :=
          match r with
          | '+' :: r2 => (false, r2)
          | '-' :: r2 => (true, r2)
          | r2 => (false, r2)
        let ev := readDigits 0 0 es.2
        if ev.2.1 = 0 ∨ ev.2.2 ≠ [] then none
        else some ⟨sgn.1, ip.1, fp.1, fp.2.1, (if es.1 then -1 else 1) * (ev.1 : ℤ)⟩
      else none

/-- Value of a parsed float literal, as an exact rational. -/
def floatLitVal (t : FloatLit) : ℚ :=
  (if t.neg then (-1 : ℚ) else 1) * ((t.ip : ℚ) + (t.fp : ℚ) / (10 ^ t.fc : ℕ)) *
    (10 : ℚ) ^ t.ex

/-- Python `float(s)` for finite decimal literals (see `pyFloatSyntax`). -/
def parsePyFloat (l0 : List Char) : Option ℚ :=
  (pyFloatSyntax l0).map floatLitVal

/-- ASCII lowercasing, for the case-insensitive `inf`/`nan` spellings. -/
def lowerAscii (c : Char) : Char :=
  if 'A' ≤ c ∧ c ≤ 'Z' then Char.ofNat (c.toNat + 32) else c

/-- The `inf`/`infinity`/`nan` spellings `float()` accepts (case-insensitive,
optional sign, surrounding whitespace).  Their IEEE values are nonfinite and
so lie outside the rational embedding; only acceptance is modelled. -/
def pyFloatSpecial (l0 : List Char) : Bool :=
  let l1 := pyStrip l0
  let l2 :=
    match l1 with
    | '+' :: r => r
    | '-' :: r => r
    | r => r
  let w := l2.map lowerAscii
  w == "inf".data || w == "infinity".data || w == "nan".data

/-- Whether the (ASCII-)stripped field contains a non-ASCII character.
CPython's `float()` additionally accepts Unicode decimal digits and Unicode
whitespace, which are outside this ASCII model; such fields are conservatively
treated as possibly numeric, so the malformed-string results quantify only
over strings `float()` certainly rejects. -/
def hasNonAscii (l : List Char) : Bool :=
  (pyStrip l).any (fun c => 127 < c.toNat)

/-- Whether `float(field)` succeeds (no `ValueError`): a finite decimal
literal, an `inf`/`nan` spelling, or (conservatively) a field containing
non-ASCII characters. -/
def float_accepts (f : List Char) : Bool :=
  (pyFloatSyntax f).isSome || pyFloatSpecial f || hasNonAscii f

/-! ## Time values and `_parse_time`

`_parse_time` (identical in `story_service.py` lines 14–34 and
`render_service.py` lines 21–41) accepts `None`, numbers, or strings. -/

/-- A Python value passed to the time parsers: `None`, an `int`/`float`
(modelled as an exact rational), or a string. -/
inductive TimeVal where
  | none
  | num (q : ℚ)
  | str (s : String)
  deriving DecidableEq, Repr

/-- Python truthiness of a `TimeVal` (`if not t_str`). -/
def pyTruthy : TimeVal → Bool
  | .none => false
  | .num q => q ≠ 0
  | .str s => s ≠ ""

/-- The branch structure shared by `_parse_time` on its colon-split fields:
1 field = seconds, 2 = `MM:SS`, 3 = `HH:MM:SS`, anything else (or a field
failing `float()`) = `0.0`.  When every field is a finite literal this is the
program’s value exactly; a field `float()` accepts with a nonfinite value
(`inf`/`nan` spellings) or with non-ASCII numerals takes the default `0` of
`Option.getD` — such inputs are outside the rational embedding and no theorem
below quantifies over them. -/
def timeFromParts (parts : List (List Char)) : ℚ :=
  match parts with
  | [p0] => if float_accepts p0 then (parsePyFloat p0).getD 0 else 0
  | [p0, p1] =>
    if float_accepts p0 && float_accepts p1 then
      (parsePyFloat p0).getD 0 * 60 + (parsePyFloat p1).getD 0
    else 0
  | [p0, p1, p2] =>
    if float_accepts p0 && float_accepts p1 && float_accepts p2 then
      (parsePyFloat p0).getD 0 * 3600 + (parsePyFloat p1).getD 0 * 60 +
        (parsePyFloat p2).getD 0
    else 0
  | _ => 0

/-- Embedding of `_parse_time` (story_service.py:14–34 / render_service.py:21–41):
falsy inputs map to `0.0`; numbers pass through; strings are comma-replaced,
stripped, colon-split, and interpreted as `SS`, `MM:SS` or `HH:MM:SS`, with any
`ValueError` swallowed to `0.0`. -/
def parse_time (t : TimeVal) : ℚ :=
  if ¬ pyTruthy t then 0
  else
    match t with
    | .none => 0
    | .num q => q
    | .str s => timeFromParts (splitColon (pyStrip (commaToDot s.data)))

/-- The branch structure of `SubtitleService.srt_time_to_seconds` on its
colon-split fields: the 3-, 2- and 1-field shapes are tried in order, each
with `ValueError` swallowed; everything else maps to `0.0`.  Accepted
nonfinite or non-ASCII fields take the `Option.getD` default, as in
`timeFromParts`. -/
def srtFromParts (parts : List (List Char)) : ℚ :=
  if parts.length = 3 then
    if float_accepts (parts.getD 0 []) && float_accepts (parts.getD 1 []) &&
        float_accepts (parts.getD 2 []) then
      (parsePyFloat (parts.getD 0 [])).getD 0 * 3600 +
        (parsePyFloat (parts.getD 1 [])).getD 0 * 60 +
        (parsePyFloat (parts.getD 2 [])).getD 0
    else 0
  else if parts.length = 2 then
    if float_accepts (parts.getD 0 []) && float_accepts (parts.getD 1 []) then
      (parsePyFloat (parts.getD 0 [])).getD 0 * 60 +
        (parsePyFloat (parts.getD 1 [])).getD 0
    else 0
  else if parts.length = 1 then
    if float_accepts (parts.getD 0 []) then (parsePyFloat (parts.getD 0 [])).getD 0
    else 0
  else 0

/-- Embedding of `SubtitleService.srt_time_to_seconds`
(subtitle_service.py:219–254): numbers pass through; strings are
comma-replaced (no strip) and colon-split.  `None` input reaches
`str(None) = "None"`, which fails to parse, giving `0.0`. -/
def srt_time_to_seconds (t : TimeVal) : ℚ :=
  match t with
  | .num q => q
  | .none => 0
  | .str s => srtFromParts (splitColon (commaToDot s.data))

/-- `{n:02d}` formatting for a nonnegative-width-2 zero pad (Python f-string). -/
def pad2 (n : ℤ) : String :=
  if 0 ≤ n ∧ n < 10 then "0" ++ toString n else toString n

/-- `{n:03d}` formatting. -/
def pad3 (n : ℤ) : String :=
  if 0 ≤ n ∧ n < 10 then "00" ++ toString n
  else if 0 ≤ n ∧ n < 100 then "0" ++ toString n
  else toString n

/-- Round to the nearest IEEE-754 binary64 (double): 53 significant bits,
ties to even (Python's `round` is also ties-to-even, and the parity of the
scaled significand is the parity of the double's last mantissa bit).
Overflow and subnormal underflow are outside the model; they are unreachable
at the magnitudes handled here. -/
def roundDouble (x : ℚ) : ℚ :=
  if x = 0 then 0
  else
    let k : ℤ := Int.log 2 |x|
    let s : ℚ := (2 : ℚ) ^ ((52 : ℤ) - k)
    (if x < 0 then (-1 : ℚ) else 1) * ((pyRound (|x| * s) : ℤ) : ℚ) / s

/-- Embedding of `SubtitleService.seconds_to_srt_time`
(subtitle_service.py:256–268): `HH:MM:SS,mmm` from IEEE double arithmetic on
the input double, given as its exact (dyadic) rational value.  `%` on doubles
(C `fmod`) is always exact and `//` returns the exact floor at these
magnitudes, so both are modelled exactly; the millisecond product
`(secs % 1) * 1000` is the one operation whose result can be inexact and is
rounded back to a double by `roundDouble`.  `int()` truncates. -/
def seconds_to_srt_time (seconds : ℚ) : String :=
  let hours := pyInt (pyFloorDiv seconds 3600)
  let minutes := pyInt (pyFloorDiv (pyMod seconds 3600) 60)
  let secs0 := pyMod seconds 60
  let millis := pyInt (roundDouble ((pyMod secs0 1) * 1000))
  let secs := pyInt secs0
  pad2 hours ++ ":" ++ pad2 minutes ++ ":" ++ pad2 secs ++ "," ++ pad3 millis

theorem parsePyFloat_of_syntax {f : List Char} {t : FloatLit}
    (h : pyFloatSyntax f = some t) : parsePyFloat f = some (floatLitVal t) := by
  simp [parsePyFloat, h]

example : parse_time (.str "01:01:05,123") = 3665123/1000 := by
  have h1 : splitColon (pyStrip (commaToDot "01:01:05,123".data)) =
      [['0','1'], ['0','1'], ['0','5','.','1','2','3']] := by decide
  have h2 : pyFloatSyntax ['0','1'] = some ⟨false, 1, 0, 0, 0⟩ := by decide
  have h3 : pyFloatSyntax ['0','5','.','1','2','3'] = some ⟨false, 5, 123, 3, 0⟩ := by
    decide
  have a1 : float_accepts ['0','1'] = true := by decide
  have a2 : float_accepts ['0','5','.','1','2','3'] = true := by decide
  rw [parse_time, if_neg (by decide)]
  simp only [h1, timeFromParts, a1, a2, Bool.and_self, if_true,
    parsePyFloat_of_syntax h2, parsePyFloat_of_syntax h3, Option.getD_some]
  norm_num [floatLitVal]

example : parse_time (.str "1_0") = 10 := by
  have h1 : splitColon (pyStrip (commaToDot "1_0".data)) = [['1','_','0']] := by decide
  have h2 : pyFloatSyntax ['1','_','0'] = some ⟨false, 10, 0, 0, 0⟩ := by decide
  have a1 : float_accepts ['1','_','0'] = true := by decide
  rw [parse_time, if_neg (by decide)]
  simp only [h1, timeFromParts, a1, if_true, parsePyFloat_of_syntax h2,
    Option.getD_some]
  norm_num [floatLitVal]

example : float_accepts "nan".data = true ∧ float_accepts "+Infinity".data = true ∧
    float_accepts "in".data = false := by decide

/-! ## The rhythmic timing normalizer (`StoryboardService._normalize_segments`)

story_service.py lines 107–300.  A segment is a dict; the normalizer reads
`start_time`/`end_time` (via `_parse_time`), writes float `start_time`/
`end_time` back, temporarily stores `_orig_duration`, and leaves every other
key untouched.  The untouched keys are modelled by the explicit `id`/`effect`/
`transition` fields plus an opaque `meta` payload. -/

/-- A storyboard segment record. -/
structure Segment (μ : Type) where
  id : String
  effect : String
  transition : String
  meta : μ
  start_time : TimeVal
  end_time : TimeVal
  orig_duration : Option ℚ := none
  deriving DecidableEq, Repr

/-- The analysis data read by `_normalize_segments`: scene segments (whose
parsed boundaries become structural points) and the technical stats.
`onset_times` is read by the source (line 137) but never used. -/
structure Analysis where
  segments : List (TimeVal × TimeVal)
  beat_times : List ℚ
  beat_strengths : List ℚ
  onset_times : List ℚ
  beat_confidence : ℚ
  bpm : ℚ
  deriving DecidableEq, Repr

def emptyAnalysis : Analysis := ⟨[], [], [], [], 0, 0⟩

/-- Timing mode selection (story_service.py:156–161). -/
inductive TimingMode where
  | beatDriven
  | beatAssisted
  | structureDriven
  deriving DecidableEq, Repr

def timing_mode (a : Analysis) : TimingMode :=
  if a.beat_times ≠ [] ∧ 2/5 ≤ a.beat_confidence then .beatDriven
  else if a.beat_times ≠ [] ∧ 3/20 ≤ a.beat_confidence then .beatAssisted
  else .structureDriven

/-- Ascending insertion (used to model Python `sorted`). -/
def insertSortedQ (x : ℚ) : List ℚ → List ℚ
  | [] => [x]
  | y :: ys => if x ≤ y then x :: y :: ys else y :: insertSortedQ x ys

/-- Python `sorted({...})`: the distinct elements in ascending order. -/
def sorted_unique (l : List ℚ) : List ℚ := l.dedup.foldr insertSortedQ []

/-- `dict(zip(beat_times, beat_strengths))` (story_service.py:142–146):
full strength map when lengths agree, constant `0.5` when only beats exist. -/
def strength_pairs (a : Analysis) : List (ℚ × ℚ) :=
  if a.beat_times ≠ [] ∧ a.beat_strengths ≠ [] ∧
      a.beat_times.length = a.beat_strengths.length then
    a.beat_times.zip a.beat_strengths
  else if a.beat_times ≠ [] then a.beat_times.map (fun b => (b, 1/2))
  else []

/-- Python `dict.get(t, dflt)` over an association list built by `dict(zip ..)`:
the last binding of a key wins. -/
def dict_get (pairs : List (ℚ × ℚ)) (t dflt : ℚ) : ℚ :=
  match pairs.reverse.find? (fun p => decide (p.1 = t)) with
  | some p => p.2
  | none => dflt

/-- `_nearest_time` (story_service.py:168–170): first candidate at minimal
absolute distance (Python `min` keeps the earliest minimum). -/
def nearest_time (target : ℚ) : List ℚ → ℚ
  | [] => target
  | c :: cs => cs.foldl (fun best x => if |x - target| < |best - target| then x else best) c

/-- `_snap_to_beat` (story_service.py:172–174). -/
def snap_to_beat (grid : List ℚ) (t : ℚ) : ℚ :=
  match grid with
  | [] => t
  | _ :: _ => nearest_time t grid

/-- Context assembled by `_normalize_segments` before its main loop. -/
structure NormCtx where
  duration : ℚ
  effectiveMax : ℚ
  scaleFactor : ℚ
  mode : TimingMode
  beatGrid : List ℚ
  strengthPairs : List (ℚ × ℚ)
  bpm : ℚ
  structuralPoints : List ℚ
  deriving DecidableEq, Repr

/-- `_select_smart_beat_end` (story_service.py:176–230): pick a beat near
`ideal_end` scoring distance, beat strength, rhythmic roundness and
structural-boundary coincidence. -/
def select_smart_beat_end (ctx : NormCtx) (start_t ideal_end : ℚ)
    (remaining : ℕ) : ℚ :=
  match ctx.beatGrid with
  | [] => ideal_end
  | g0 :: gs =>
    let min_end := start_t + 1/2
    let max_end := min (start_t + 6) (ctx.duration - (remaining : ℚ) * (1/2))
    let candidates := (g0 :: gs).filter (fun b => decide (min_end ≤ b) && decide (b ≤ max_end))
    match candidates with
    | [] => min max_end ctx.duration
    | c :: cs =>
      let window : ℚ := 2
      let wcands := (c :: cs).filter (fun x => decide (|x - ideal_end| ≤ window))
      match wcands with
      | [] => nearest_time ideal_end (c :: cs)
      | w :: ws =>
        let beat_duration : ℚ := if 20 < ctx.bpm then 60 / ctx.bpm else 1/2
        let score := fun (t : ℚ) =>
          let dist_score := 1 - |t - ideal_end| / window
          let strength := dict_get ctx.strengthPairs t 0
          let rhythm_score :=
            if 0 < beat_duration then
              let beats_elapsed := (t - start_t) / beat_duration
              let alignment := 1 - |beats_elapsed - (pyRound beats_elapsed : ℚ)| / (1/2)
              let base := alignment * (1/5)
              if |beats_elapsed - 4| < 1/5 ∨ |beats_elapsed - 8| < 1/5 then base + 3/10
              else if |beats_elapsed - 2| < 1/5 then base + 1/10
              else base
            else 0
          let s0 := 3/10 * dist_score + 1/2 * strength + 1/5 * rhythm_score
          if (ctx.structuralPoints.any (fun sp => decide (|t - sp| < 3/20))) then s0 + 2/5
          else s0
        ((w :: ws).foldl
          (fun best t => if score t > best.2 then (t, score t) else best) (w, -1)).1

/-- Start-of-iteration `current_time` (story_service.py:251–254): snapped to
the beat grid in beat-driven mode when positive. -/
def norm_step_current (ctx : NormCtx) (current0 : ℚ) : ℚ :=
  if ctx.mode = TimingMode.beatDriven ∧ 0 < current0 then
    snap_to_beat ctx.beatGrid current0
  else current0

/-- The remaining-pressure-nudged ideal end (story_service.py:267–277). -/
def norm_step_ideal {μ : Type} (ctx : NormCtx) (seg : Segment μ) (restLen : ℕ)
    (current : ℚ) : ℚ :=
  let orig_dur := seg.orig_duration.getD 0
  let seg_duration := max (1/2) (min (orig_dur * ctx.scaleFactor) ctx.effectiveMax)
  let ideal0 := current + seg_duration
  let rem_time := ctx.duration - ideal0
  if 0 < restLen ∧ ctx.effectiveMax < rem_time / (restLen : ℚ) then
    ideal0 + (rem_time / (restLen : ℚ) - ctx.effectiveMax) * (1/2)
  else ideal0

/-- The mode-specific pre-clamp end (story_service.py:279–286). -/
def norm_step_raw {μ : Type} (ctx : NormCtx) (seg : Segment μ) (restLen : ℕ)
    (current : ℚ) : ℚ :=
  let ideal_end := norm_step_ideal ctx seg restLen current
  match ctx.mode with
  | .beatDriven => select_smart_beat_end ctx current ideal_end restLen
  | .beatAssisted =>
    snap_to_beat ctx.beatGrid
      (1/5 * ideal_end + 4/5 * select_smart_beat_end ctx current ideal_end restLen)
  | .structureDriven => min ideal_end (ctx.duration - (restLen : ℚ) * (1/2))

/-- The safety-clamped end of a non-final segment (story_service.py:288–290). -/
def norm_step_end {μ : Type} (ctx : NormCtx) (seg : Segment μ) (restLen : ℕ)
    (current0 : ℚ) : ℚ :=
  let current := norm_step_current ctx current0
  min (max (norm_step_raw ctx seg restLen current) (current + 1/2))
    (ctx.duration - (restLen : ℚ) * (1/2))

/-- The normalization loop (story_service.py:242–293), walking segments left to
right with a running `current_time`.  The final segment receives
`end_time = duration`; every other end is the mode-specific choice clamped to
`[current + MIN, duration - remaining * MIN]`. -/
def norm_loop {μ : Type} (ctx : NormCtx) : List (Segment μ) → ℚ → List (Segment μ)
  | [], _ => []
  | seg :: rest, current0 =>
    match rest with
    | [] =>
      [{ seg with
          start_time := TimeVal.num (norm_step_current ctx current0)
          end_time := TimeVal.num ctx.duration
          orig_duration := none }]
    | _ :: _ =>
      { seg with
          start_time := TimeVal.num (norm_step_current ctx current0)
          end_time := TimeVal.num (norm_step_end ctx seg rest.length current0)
          orig_duration := none } ::
        norm_loop ctx rest (norm_step_end ctx seg rest.length current0)

/-- The gap-removal post-pass body (story_service.py:296–297): each segment's
`start_time` becomes the previous segment's `end_time`; ends are untouched. -/
def chain_starts_aux {μ : Type} (prev_end : TimeVal) :
    List (Segment μ) → List (Segment μ)
  | [] => []
  | b :: rest =>
    let b1 : Segment μ := { b with start_time := prev_end }
    b1 :: chain_starts_aux b1.end_time rest

def chain_starts {μ : Type} : List (Segment μ) → List (Segment μ)
  | [] => []
  | a :: rest => a :: chain_starts_aux a.end_time rest

/-- Phase 1 of `_normalize_segments` (story_service.py:117–126): store each
segment's clamped suggested duration under `_orig_duration`. -/
def norm_phase1 {μ : Type} (segments : List (Segment μ)) : List (Segment μ) :=
  segments.map (fun seg =>
    let s := parse_time seg.start_time
    let e := parse_time seg.end_time
    let d0 := max (1/10) (e - s)
    let d1 := min d0 9
    { seg with orig_duration := some d1 })

/-- The structural points (story_service.py:149–153). -/
def structural_points_of (analysis : Analysis) (duration : ℚ) : List ℚ :=
  sorted_unique
    (((analysis.segments.map (fun p => [parse_time p.1, parse_time p.2])).flatten).filter
      (fun t => decide (0 ≤ t) && decide (t ≤ duration)))

/-- The context assembled by `_normalize_segments` before its main loop
(story_service.py:128–163 and 237–240). -/
def norm_ctx {μ : Type} (segments : List (Segment μ)) (duration : ℚ)
    (analysis : Analysis) : NormCtx :=
  let total_suggested :=
    ((norm_phase1 segments).map (fun s => s.orig_duration.getD 0)).sum
  let scale_factor := if 0 < total_suggested then duration / total_suggested else 1
  let beat_grid :=
    if analysis.beat_times ≠ [] then sorted_unique (0 :: analysis.beat_times ++ [duration])
    else [0, duration]
  let ideal_avg := duration / (segments.length : ℚ)
  { duration := duration, effectiveMax := max 6 (ideal_avg * (13/10)),
    scaleFactor := scale_factor, mode := timing_mode analysis, beatGrid := beat_grid,
    strengthPairs := strength_pairs analysis, bpm := analysis.bpm,
    structuralPoints := structural_points_of analysis duration }

/-- Embedding of `StoryboardService._normalize_segments`
(story_service.py:107–300). -/
def normalize_segments {μ : Type} (segments : List (Segment μ)) (duration : ℚ)
    (analysis : Analysis) : List (Segment μ) :=
  if segments.length = 0 then []
  else
    chain_starts
      (norm_loop (norm_ctx segments duration analysis) (norm_phase1 segments) 0)

/-- Parsed start of a segment, as the invariants read it. -/
def startQ {μ : Type} (s : Segment μ) : ℚ := parse_time s.start_time

/-- Parsed end of a segment. -/
def endQ {μ : Type} (s : Segment μ) : ℚ := parse_time s.end_time

end Clipmaker

namespace Clipmaker

/-! ## The motion-effect crop computation (`RenderService._apply_effect`)

render_service.py lines 430–595.  The image is upscaled if it is smaller than
1.5x the target, a maximal target-aspect "cover" rectangle is computed, and
`make_frame(t)` crops a scaled copy of that rectangle around an interpolated
center, shifts/clamps it into the image, falls back to a centered cover crop
when degenerate, and resizes to exactly `(tw, th)`.  The sinusoidal easing
`p = 0.5*(1 - cos(pi*t/duration))` always lies in `[0, 1]`; the crop is
modelled as a function of that eased progress `p` (and of the random
`zoom_level`), and the safety theorem holds for arbitrary rational `p` and
`zoom_level`, hence in particular for every `t` in `[0, duration]`. -/

/-- The rectangle `img_arr[y1:y2, x1:x2]` read from the (possibly upscaled)
source image. -/
structure CropRect where
  x1 : ℤ
  y1 : ℤ
  x2 : ℤ
  y2 : ℤ
  deriving DecidableEq, Repr

/-- Upscale step (render_service.py:462–477): ensure the working image is at
least 1.5x the target in both axes. -/
def upscaled_size (ow oh tw th : ℕ) : ℕ × ℕ :=
  let sf : ℚ := max (max ((3/2 * (tw : ℚ)) / (ow : ℚ)) ((3/2 * (th : ℚ)) / (oh : ℚ))) 1
  if 1 < sf then ((pyInt ((ow : ℚ) * sf)).toNat, (pyInt ((oh : ℚ) * sf)).toNat)
  else (ow, oh)

/-- Maximal crop matching the target aspect ratio (render_service.py:480–489). -/
def max_crop (w h tw th : ℚ) : ℚ × ℚ :=
  if tw / th < w / h then (h * (tw / th), h) else (w, w * (th / tw))

/-- Per-effect scale and crop center (render_service.py:505–533); returns
`(scale, cx, cy)`. -/
def effect_scale_center (effect : String) (w h mcw mch zoom p : ℚ) : ℚ × ℚ × ℚ :=
  let cx0 := w / 2
  let cy0 := h / 2
  if effect = "zoom_in" then (1 - (1 - zoom) * p, cx0, cy0)
  else if effect = "zoom_out" then (zoom + (1 - zoom) * p, cx0, cy0)
  else if effect = "pan_left" ∨ effect = "pan_right" then
    let scale := if mcw * (21/20) < w then 1 else zoom
    let cw := mcw * scale
    let min_cx := cw / 2
    let max_cx := w - cw / 2
    if min_cx < max_cx then
      if effect = "pan_left" then (scale, max_cx - (max_cx - min_cx) * p, cy0)
      else (scale, min_cx + (max_cx - min_cx) * p, cy0)
    else (scale, cx0, cy0)
  else if effect = "pan_up" ∨ effect = "pan_down" then
    let scale := if mch * (21/20) < h then 1 else zoom
    let ch := mch * scale
    let min_cy := ch / 2
    let max_cy := h - ch / 2
    if min_cy < max_cy then
      if effect = "pan_up" then (scale, cx0, max_cy - (max_cy - min_cy) * p)
      else (scale, cx0, min_cy + (max_cy - min_cy) * p)
    else (scale, cx0, cy0)
  else (1, cx0, cy0)

/-- The shift-then-clamp sequence for one axis (render_service.py:549–566):
shift the window back inside `[0, w]` without shrinking, then clamp. -/
def shift_clamp (w : ℕ) (a b : ℤ) : ℤ × ℤ :=
  let p1 : ℤ × ℤ := if a < 0 then (0, b - a) else (a, b)
  let p2 : ℤ × ℤ := if (w : ℤ) < p1.2 then (p1.1 - (p1.2 - (w : ℤ)), (w : ℤ)) else p1
  (max 0 p2.1, min (w : ℤ) p2.2)

/-- Degenerate-crop fallback for one axis (render_service.py:569–576):
centered crop of size `min(w, max_crop)`. -/
def axis_center_fallback (w : ℕ) (mc : ℚ) : ℤ × ℤ :=
  let c : ℚ := min (w : ℚ) mc
  let a := pyInt (((w : ℚ) - c) / 2)
  (a, pyInt ((a : ℚ) + c))

/-- Empty-slice fallback for one axis (render_service.py:581–587):
the sizes pass through `int()` and Python `//` (floor division). -/
def axis_center_fallback2 (w : ℕ) (mc : ℚ) : ℤ × ℤ :=
  let c : ℤ := min (w : ℤ) (pyInt mc)
  let a : ℤ := Int.fdiv ((w : ℤ) - c) 2
  (a, a + c)

/-- The crop rectangle read by `make_frame` (render_service.py:498–587) as a
function of the eased progress `p`. -/
def make_frame_crop (ow oh tw th : ℕ) (effect : String) (zoom p : ℚ) : CropRect :=
  let wh := upscaled_size ow oh tw th
  let w : ℚ := wh.1
  let h : ℚ := wh.2
  let mc := max_crop w h tw th
  let scc := effect_scale_center effect w h mc.1 mc.2 zoom p
  let final_w := max (mc.1 * scc.1) ((tw : ℚ) * (1/2))
  let final_h := max (mc.2 * scc.1) ((th : ℚ) * (1/2))
  let x1 := pyInt (scc.2.1 - final_w / 2)
  let y1 := pyInt (scc.2.2 - final_h / 2)
  let x2 := pyInt ((x1 : ℚ) + final_w)
  let y2 := pyInt ((y1 : ℚ) + final_h)
  let xs := shift_clamp wh.1 x1 x2
  let ys := shift_clamp wh.2 y1 y2
  let r1 : CropRect :=
    if xs.2 ≤ xs.1 ∨ ys.2 ≤ ys.1 then
      let xf := axis_center_fallback wh.1 mc.1
      let yf := axis_center_fallback wh.2 mc.2
      ⟨xf.1, yf.1, xf.2, yf.2⟩
    else ⟨xs.1, ys.1, xs.2, ys.2⟩
  if r1.x2 ≤ r1.x1 ∨ r1.y2 ≤ r1.y1 then
    let xf := axis_center_fallback2 wh.1 mc.1
    let yf := axis_center_fallback2 wh.2 mc.2
    ⟨xf.1, yf.1, xf.2, yf.2⟩
  else r1

/-- `make_frame` (render_service.py:498–593): the produced raster is the crop
resized to exactly `(tw, th)`; we record that output size together with the
source crop rectangle. -/
def make_frame (ow oh tw th : ℕ) (effect : String) (zoom p : ℚ) :
    (ℕ × ℕ) × CropRect :=
  ((tw, th), make_frame_crop ow oh tw th effect zoom p)

/-- The crop lies strictly inside `[0, w] x [0, h]` and is nonempty. -/
def crop_in_bounds (w h : ℕ) (r : CropRect) : Prop :=
  0 ≤ r.x1 ∧ r.x1 < r.x2 ∧ r.x2 ≤ (w : ℤ) ∧ 0 ≤ r.y1 ∧ r.y1 < r.y2 ∧ r.y2 ≤ (h : ℤ)

/-! ## Clip creation and render persistence (`RenderService._create_clips`, `RenderService.render`)

render_service.py lines 203–291 and 55–149.  `_create_clips` walks segments in
order, skipping ones with a falsy id, a missing image, or a non-positive
timeline duration; every non-last segment's clip duration is extended by
`transition_duration = 0.4`; `"random"` effect/transition choices are resolved
and written back onto the segment dicts.  `render` then calls `save_segments`
(line 111) *before* `write_videofile` (line 132).  The RNG is modelled as the
oracle functions `effect_pick`/`trans_pick` giving, per segment index, the
value the `random` module would produce. -/

/-- The renderer's view of a segment record: the resolved id
(`seg.get("id") or seg.get("segment_id")`, `""` when falsy), whether
`file_storage.get_image_path` finds its image, its times, and its
effect/transition fields (`effect = ""` models a missing/falsy value;
`transition = none` models a missing key). -/
structure RSeg where
  seg_id : String
  image_exists : Bool
  start_time : TimeVal
  end_time : TimeVal
  effect : String
  transition : Option String
  deriving DecidableEq, Repr

/-- A generated clip: source segment index, total clip duration (timeline
duration plus transition extension), resolved effect, and the transition
applied at its head (`none` for the first clip). -/
structure ClipRec where
  seg_index : ℕ
  duration : ℚ
  effect : String
  transition : Option String
  deriving DecidableEq, Repr

/-- The `_create_clips` loop (render_service.py:228–282).  `i` is the
`enumerate` index; "current segment is not the last" (`i < len(segments)-1`)
is expressed as `rest ≠ []`.  Returns the clips plus the (possibly mutated)
segment list that `render` later saves. -/
def create_clips_loop (effect_pick trans_pick : ℕ → String) :
    List RSeg → ℕ → List ClipRec × List RSeg
  | [], _ => ([], [])
  | seg :: rest, i =>
    if seg.seg_id = "" ∨ ¬ seg.image_exists ∨
        parse_time seg.end_time - parse_time seg.start_time ≤ 0 then
      let r := create_clips_loop effect_pick trans_pick rest (i + 1)
      (r.1, seg :: r.2)
    else
      let d0 := parse_time seg.end_time - parse_time seg.start_time
      let d := if rest ≠ [] then d0 + 2/5 else d0
      let eff0 := if seg.effect = "" then "random" else seg.effect
      let effR := if eff0 = "random" then effect_pick i else eff0
      let seg1 := if eff0 = "random" then { seg with effect := effR } else seg
      let tr0 := seg.transition.getD "random"
      let trR := if tr0 = "random" then trans_pick i else tr0
      let seg2 :=
        if 0 < i ∧ tr0 = "random" then { seg1 with transition := some trR } else seg1
      let cl : ClipRec :=
        { seg_index := i, duration := d, effect := effR,
          transition := if 0 < i then some trR else none }
      let r := create_clips_loop effect_pick trans_pick rest (i + 1)
      (cl :: r.1, seg2 :: r.2)

def create_clips (effect_pick trans_pick : ℕ → String) (segs : List RSeg) :
    List ClipRec × List RSeg :=
  create_clips_loop effect_pick trans_pick segs 0

/-- Start times produced by
`concatenate_videoclips(clips, method="compose", padding=-0.4)` (modelled from
moviepy's documented semantics): the first clip starts at 0 and each next clip
starts at the previous start plus the previous duration plus the padding. -/
def clip_starts : List ClipRec → ℚ → List ℚ
  | [], _ => []
  | c :: cs, t => t :: clip_starts cs (t + c.duration - 2/5)

inductive RenderOutcome where
  | ok
  | errMissingAudio
  | errNoValidSegments
  | errEncode
  deriving DecidableEq, Repr

/-- Persistence-ordering model of `RenderService.render`
(render_service.py:55–149): missing audio fails before anything; a
`_create_clips` failure (`ValueError` when no clips survive) happens before
`save_segments`; otherwise the resolved segments are saved (line 111) and only
then does encoding run (line 132), so an encode failure leaves the resolved
records already persisted.  The first component is the repository's segment
list after the call. -/
def render_model (segs : List RSeg) (audio_exists : Bool)
    (effect_pick trans_pick : ℕ → String) (encode_ok : Bool) :
    List RSeg × RenderOutcome :=
  if ¬ audio_exists then (segs, .errMissingAudio)
  else
    let r := create_clips effect_pick trans_pick segs
    if r.1 = [] then (segs, .errNoValidSegments)
    else if encode_ok then (r.2, .ok)
    else (r.2, .errEncode)

/-! ## Subtitle layout and karaoke rendering (`RenderService._layout_text`, `RenderService._render_layout`)

render_service.py lines 1345–1518.  `_layout_text` splits the cue text on
newlines, parses `<h>...</h>` spans (`re.split r'(<h>.*?</h>)'`), measures
words with the font, wraps greedily to `max_width` reserving `2 * hl_padding`
extra slot width for highlighted tokens (and, when `pad_all` i.e. karaoke
mode, for all tokens), and assigns per-token positions and box rectangles.
`_render_layout` rasterizes a layout with an optional active word index,
reading and never writing the layout.  The font is modelled as its measured
pixel widths (`textbbox` width per string) and its `"Ag"` text height. -/

/-- Font metrics used by the layout code. -/
structure FontModel where
  width : String → ℤ
  height : ℤ

/-- Generic single-character split, keeping empty fields
(Python `s.split(c)` for a one-character separator). -/
def split_on_char (sep : Char) : List Char → List (List Char)
  | [] => [[]]
  | c :: cs =>
    if c = sep then [] :: split_on_char sep cs
    else
      match split_on_char sep cs with
      | [] => [[c]]
      | f :: fs => (c :: f) :: fs

/-- Find the first `"<h>"`; returns the text before it and the text after it. -/
def break_tag_open : List Char → Option (List Char × List Char)
  | [] => none
  | c :: r =>
    if c = '<' ∧ r.take 2 = ['h', '>'] then some ([], r.drop 2)
    else
      match break_tag_open r with
      | some p => some (c :: p.1, p.2)
      | none => none

/-- Find the first `"</h>"`; returns the text before it and the text after it. -/
def break_tag_close : List Char → Option (List Char × List Char)
  | [] => none
  | c :: r =>
    if c = '<' ∧ r.take 3 = ['/', 'h', '>'] then some ([], r.drop 3)
    else
      match break_tag_close r with
      | some p => some (c :: p.1, p.2)
      | none => none

theorem break_tag_open_length {l : List Char} {p : List Char × List Char}
    (h : break_tag_open l = some p) : p.2.length < l.length := by
  induction l generalizing p with
  | nil => simp [break_tag_open] at h
  | cons c r ih =>
    rw [break_tag_open] at h
    split at h
    · cases h
      have : (r.drop 2).length ≤ r.length := by
        simp [List.length_drop]
      simp only [List.length_cons]
      exact Nat.lt_succ_of_le this
    · cases hr : break_tag_open r with
      | none => rw [hr] at h; cases h
      | some q =>
        rw [hr] at h
        cases h
        exact Nat.lt_succ_of_lt (ih (p := q) hr)

theorem break_tag_close_length {l : List Char} {p : List Char × List Char}
    (h : break_tag_close l = some p) : p.2.length < l.length := by
  induction l generalizing p with
  | nil => simp [break_tag_close] at h
  | cons c r ih =>
    rw [break_tag_close] at h
    split at h
    · cases h
      have : (r.drop 3).length ≤ r.length := by
        simp [List.length_drop]
      simp only [List.length_cons]
      exact Nat.lt_succ_of_le this
    · cases hr : break_tag_close r with
      | none => rw [hr] at h; cases h
      | some q =>
        rw [hr] at h
        cases h
        exact Nat.lt_succ_of_lt (ih (p := q) hr)

/-- `re.split r'(<h>.*?</h>)'` over one explicit line, tagging captured
`<h>...</h>` spans: leftmost `<h>` with the nearest following `</h>`
(non-greedy); text with no complete span left is a single plain part. -/
def split_h_parts (l : List Char) : List (Bool × List Char) :=
  match h1 : break_tag_open l with
  | none => [(false, l)]
  | some pre_rest =>
    match h2 : break_tag_close pre_rest.2 with
    | none => [(false, l)]
    | some content_post =>
      (false, pre_rest.1) :: (true, content_post.1) :: split_h_parts content_post.2
termination_by l.length
decreasing_by
  exact Nat.lt_trans (break_tag_close_length h2) (break_tag_open_length h1)

/-- An unpositioned layout token (render_service.py:1382–1389): measured raw
width, highlight flag, reserved padding, total slot width. -/
structure TokB where
  text : String
  width : ℤ
  is_sp : Bool
  hl : Bool
  padding : ℤ
  total_width : ℤ
  deriving DecidableEq, Repr

/-- Tokens of one tagged part: words split on single spaces, empty ones
dropped (`[w for w in content.split(' ') if w]`). -/
def part_tokens (font : FontModel) (hl_padding : ℤ) (pad_all : Bool)
    (is_hl : Bool) (content : List Char) : List TokB :=
  ((split_on_char ' ' content).filter (fun w => !w.isEmpty)).map (fun w =>
    let txt : String := ⟨w⟩
    let raw_w := font.width txt
    let padding := if is_hl || pad_all then hl_padding else 0
    { text := txt, width := raw_w, is_sp := false, hl := is_hl,
      padding := padding, total_width := raw_w + padding * 2 })

/-- All tokens of one explicit line. -/
def line_tokens (font : FontModel) (hl_padding : ℤ) (pad_all : Bool)
    (line : List Char) : List TokB :=
  (split_h_parts line).flatMap (fun p => part_tokens font hl_padding pad_all p.1 p.2)

/-- The greedy wrap loop (render_service.py:1391–1408). -/
def wrap_fold (max_width space_w : ℤ) (acc : List (List TokB)) (cur : List TokB)
    (cur_w : ℤ) : List TokB → List (List TokB) × List TokB
  | [] => (acc, cur)
  | t :: ts =>
    if cur_w + t.total_width ≤ max_width then
      wrap_fold max_width space_w acc (cur ++ [t]) (cur_w + t.total_width + space_w) ts
    else if cur ≠ [] then
      wrap_fold max_width space_w (acc ++ [cur]) [t] (t.total_width + space_w) ts
    else
      wrap_fold max_width space_w (acc ++ [[t]]) [] 0 ts

/-- Wrap one explicit line's tokens into layout lines, flushing the open line
at the end (render_service.py:1410–1411). -/
def wrap_one (max_width space_w : ℤ) (toks : List TokB) : List (List TokB) :=
  let r := wrap_fold max_width space_w [] [] 0 toks
  r.1 ++ (if r.2 ≠ [] then [r.2] else [])

/-- A positioned token: draw position and highlight box rectangle
(render_service.py:1447–1461). -/
structure TokP where
  base : TokB
  x : ℤ
  y : ℤ
  box : ℤ × ℤ × ℤ × ℤ
  deriving DecidableEq, Repr

/-- Line width: slot widths plus inter-word spacing (render_service.py:1429–1434). -/
def line_width (space_w : ℤ) (line : List TokB) : ℤ :=
  (line.map TokB.total_width).sum + ((line.length - 1 : ℕ) : ℤ) * space_w

/-- Position the tokens of one line starting at float `x` (render_service.py:1447–1461). -/
def position_go (text_height : ℤ) (space_w : ℤ) (y : ℤ) :
    ℚ → List TokB → List TokP
  | _, [] => []
  | x, t :: ts =>
    { base := t,
      x := pyInt (x + (t.padding : ℚ)),
      y := y,
      box := (pyInt x, pyInt ((y : ℚ) - (t.padding : ℚ)),
              pyInt (x + (t.total_width : ℚ)),
              pyInt ((y : ℚ) + (text_height : ℚ) + (t.padding : ℚ))) } ::
      position_go text_height space_w y (x + (t.total_width : ℚ) + (space_w : ℚ)) ts

/-- Starting x of a line under the configured alignment (render_service.py:1436–1445). -/
def align_x (align : String) (total_w lw : ℤ) : ℚ :=
  if align = "center" then ((total_w : ℚ) - (lw : ℚ)) / 2
  else if align = "right" then (total_w : ℚ) - (lw : ℚ) - 10
  else 10

/-- Position all lines, stepping `y` by `step_y` (render_service.py:1424–1464). -/
def position_lines (align : String) (total_w space_w text_height step_y : ℤ) :
    List (List TokB) → ℤ → List (List TokP)
  | [], _ => []
  | line :: ls, y =>
    position_go text_height space_w y (align_x align total_w (line_width space_w line)) line ::
      position_lines align total_w space_w text_height step_y ls (y + step_y)

/-- The computed text layout (render_service.py:1466–1471). -/
structure TextLayout where
  lines : List (List TokP)
  w : ℤ
  h : ℤ
  text_height : ℤ
  deriving DecidableEq, Repr

/-- Embedding of `RenderService._layout_text` (render_service.py:1345–1471). -/
def layout_text (text : String) (font : FontModel) (max_width : ℤ)
    (align : String) (hl_padding : ℤ) (pad_all : Bool) : TextLayout :=
  let space_w := font.width " "
  let wrapped : List (List TokB) :=
    (split_on_char '\n' text.data).flatMap (fun ls =>
      wrap_one max_width space_w (line_tokens font hl_padding pad_all ls))
  let text_height := font.height
  let line_height := text_height + 20
  let step_y := max line_height (text_height + hl_padding * 2 + 10)
  let total_h := (wrapped.length : ℤ) * step_y + 20
  let y0 := 10 + hl_padding
  { lines := position_lines align max_width space_w text_height step_y wrapped y0,
    w := max_width, h := total_h, text_height := text_height }

/-- One token's draw record produced by `_render_layout`
(render_service.py:1488–1516). -/
structure DrawTok where
  text : String
  x : ℤ
  y : ℤ
  box : ℤ × ℤ × ℤ × ℤ
  box_drawn : Bool
  active : Bool
  stroked : Bool
  deriving DecidableEq, Repr

/-- The token walk of `_render_layout` with its global word counter. -/
def render_go (stroke_width : ℤ) (aw : Option ℕ) : List TokP → ℕ → List DrawTok
  | [], _ => []
  | t :: ts, c =>
    let is_active := decide (aw = some c)
    { text := t.base.text, x := t.x, y := t.y, box := t.box,
      box_drawn := is_active || t.base.hl,
      active := is_active,
      stroked := decide (0 < stroke_width) && !is_active } ::
      render_go stroke_width aw ts (c + 1)

/-- Embedding of `RenderService._render_layout` (render_service.py:1473–1518):
a pure function of the layout and the active word index; geometry is read
from the layout unchanged. -/
def render_layout (layout : TextLayout) (stroke_width : ℤ) (aw : Option ℕ) :
    List DrawTok :=
  render_go stroke_width aw layout.lines.flatten 0

/-- Distinct words of a layout (render_service.py:792). -/
def layout_word_count (L : TextLayout) : ℕ :=
  (L.lines.flatten.filter (fun t => !t.base.is_sp)).length

/-- The karaoke loop of `_add_subtitles` (render_service.py:781–871): one
layout computed per cue, re-rendered once per word index. -/
def karaoke_renders (L : TextLayout) (stroke_width : ℤ) : List (List DrawTok) :=
  (List.range (layout_word_count L)).map (fun i => render_layout L stroke_width (some i))

/-- Geometry of a drawn token: text, position and box rectangle. -/
def tokGeom (d : DrawTok) : String × ℤ × ℤ × (ℤ × ℤ × ℤ × ℤ) :=
  (d.text, d.x, d.y, d.box)

def mkSeg (i : String) (s e : TimeVal) : Segment Unit :=
  { id := i, effect := "random", transition := "random", meta := (),
    start_time := s, end_time := e }

def c3segs : List (Segment Unit) :=
  [mkSeg "s1" (.num 0) (.num (1/10)), mkSeg "s2" (.num 0) (.num 9),
   mkSeg "s3" (.num 0) (.num 9)]

theorem parse_time_num (q : ℚ) : parse_time (.num q) = q := by
  by_cases h : q = 0 <;> simp [parse_time, pyTruthy, h]

def dummySeg : Segment Unit := mkSeg "" .none .none

theorem c3_eval :
    (normalize_segments c3segs 30 emptyAnalysis).map (fun s => (startQ s, endQ s)) =
      [(0, 11/8), (11/8, 251/16), (251/16, 30)] := by
  norm_num [normalize_segments, norm_ctx, norm_phase1, structural_points_of,
    c3segs, mkSeg, emptyAnalysis, timing_mode,
    strength_pairs, sorted_unique, norm_loop, chain_starts, chain_starts_aux,
    norm_step_current, norm_step_end, norm_step_raw, norm_step_ideal,
    parse_time_num, startQ, endQ, min_def, max_def,
    show TimingMode.structureDriven ≠ TimingMode.beatDriven from by decide]

end Clipmaker

namespace Clipmaker

/-! ## Lemmas about stripping and splitting (for the time-parser claims) -/

theorem dropTrailWs_cons (c : Char) (r : List Char) :
    dropTrailWs (c :: r) =
      match dropTrailWs r with
      | [] => if pyWs c then [] else [c]
      | s => c :: s := by
  rw [dropTrailWs]

theorem splitColon_cons (c : Char) (cs : List Char) :
    splitColon (c :: cs) =
      if c = ':' then [] :: splitColon cs
      else
        match splitColon cs with
        | [] => [[c]]
        | f :: fs => (c :: f) :: fs := by
  rw [splitColon]

theorem dropWs_cons (c : Char) (r : List Char) :
    dropWs (c :: r) = if pyWs c then dropWs r else c :: r := by
  simp [dropWs, List.dropWhile_cons]

theorem dropWs_dropWs (l : List Char) : dropWs (dropWs l) = dropWs l := by
  induction l with
  | nil => rfl
  | cons c r ih =>
    by_cases h : pyWs c
    · rw [dropWs_cons, if_pos h, ih]
    · rw [dropWs_cons, if_neg h, dropWs_cons, if_neg h]

theorem dropTrailWs_nil : dropTrailWs [] = [] := rfl

theorem dropTrailWs_dropTrailWs (l : List Char) :
    dropTrailWs (dropTrailWs l) = dropTrailWs l := by
  induction l with
  | nil => rfl
  | cons c r ih =>
    rw [dropTrailWs_cons]
    cases hr : dropTrailWs r with
    | nil =>
      by_cases h : pyWs c
      · simp [h, dropTrailWs_nil]
      · simp [h, dropTrailWs_cons, dropTrailWs_nil]
    | cons d ds =>
      rw [hr] at ih
      simp only []
      rw [dropTrailWs_cons, ih]
  
theorem dropWs_dropTrailWs_comm (l : List Char) :
    dropWs (dropTrailWs l) = dropTrailWs (dropWs l) := by
  induction l with
  | nil => rfl
  | cons c r ih =>
    by_cases h : pyWs c
    · have hrhs : dropTrailWs (dropWs (c :: r)) = dropWs (dropTrailWs r) := by
        rw [dropWs_cons, if_pos h, ← ih]
      rw [hrhs, dropTrailWs_cons]
      cases hr : dropTrailWs r with
      | nil => simp [h]
      | cons d ds => simp [dropWs_cons, h]
    · have hrhs : dropTrailWs (dropWs (c :: r)) = dropTrailWs (c :: r) := by
        rw [dropWs_cons, if_neg h]
      rw [hrhs, dropTrailWs_cons]
      cases hr : dropTrailWs r with
      | nil => simp [h, dropWs_cons]
      | cons d ds => simp [dropWs_cons, h]

theorem pyStrip_dropWs (l : List Char) : pyStrip (dropWs l) = pyStrip l := by
  simp [pyStrip, dropWs_dropWs]

theorem pyStrip_dropTrailWs (l : List Char) : pyStrip (dropTrailWs l) = pyStrip l := by
  simp [pyStrip, dropWs_dropTrailWs_comm, dropTrailWs_dropTrailWs]

theorem pyFloatSyntax_strip_congr {a b : List Char} (h : pyStrip a = pyStrip b) :
    pyFloatSyntax a = pyFloatSyntax b := by
  unfold pyFloatSyntax
  rw [h]

theorem parsePyFloat_dropWs (f : List Char) :
    parsePyFloat (dropWs f) = parsePyFloat f := by
  unfold parsePyFloat
  rw [pyFloatSyntax_strip_congr (pyStrip_dropWs f)]

theorem parsePyFloat_dropTrailWs (f : List Char) :
    parsePyFloat (dropTrailWs f) = parsePyFloat f := by
  unfold parsePyFloat
  rw [pyFloatSyntax_strip_congr (pyStrip_dropTrailWs f)]

theorem pyFloatSpecial_strip_congr {a b : List Char} (h : pyStrip a = pyStrip b) :
    pyFloatSpecial a = pyFloatSpecial b := by
  unfold pyFloatSpecial
  rw [h]

theorem hasNonAscii_strip_congr {a b : List Char} (h : pyStrip a = pyStrip b) :
    hasNonAscii a = hasNonAscii b := by
  unfold hasNonAscii
  rw [h]

theorem float_accepts_dropWs (f : List Char) :
    float_accepts (dropWs f) = float_accepts f := by
  unfold float_accepts
  rw [pyFloatSyntax_strip_congr (pyStrip_dropWs f),
    pyFloatSpecial_strip_congr (pyStrip_dropWs f),
    hasNonAscii_strip_congr (pyStrip_dropWs f)]

theorem float_accepts_dropTrailWs (f : List Char) :
    float_accepts (dropTrailWs f) = float_accepts f := by
  unfold float_accepts
  rw [pyFloatSyntax_strip_congr (pyStrip_dropTrailWs f),
    pyFloatSpecial_strip_congr (pyStrip_dropTrailWs f),
    hasNonAscii_strip_congr (pyStrip_dropTrailWs f)]

theorem splitColon_ne_nil (l : List Char) : splitColon l ≠ [] := by
  induction l with
  | nil => simp [splitColon]
  | cons c r ih =>
    rw [splitColon_cons]
    by_cases h : c = ':'
    · simp [h]
    · rw [if_neg h]
      cases hr : splitColon r with
      | nil => simp
      | cons f fs => simp

theorem splitColon_dropWs (l : List Char) :
    splitColon (dropWs l) = (splitColon l).modifyHead dropWs := by
  induction l with
  | nil => rfl
  | cons c r ih =>
    by_cases h : pyWs c
    · have hc : ¬ c = ':' := by
        intro hcc
        rw [hcc] at h
        simp [pyWs] at h
      rw [dropWs_cons, if_pos h, ih, splitColon_cons, if_neg hc]
      cases hr : splitColon r with
      | nil => exact absurd hr (splitColon_ne_nil r)
      | cons f fs =>
        simp only [List.modifyHead]
        rw [dropWs_cons, if_pos h]
    · rw [dropWs_cons, if_neg h, splitColon_cons]
      by_cases hc : c = ':'
      · rw [if_pos hc]
        simp [List.modifyHead, dropWs]
      · rw [if_neg hc]
        cases hr : splitColon r with
        | nil => exact absurd hr (splitColon_ne_nil r)
        | cons f fs =>
          simp only [List.modifyHead, splitColon_cons, if_neg hc, hr]
          rw [dropWs_cons, if_neg h]

/-- Apply `g` to the last element of a list. -/
def modLast (g : List Char → List Char) : List (List Char) → List (List Char)
  | [] => []
  | [x] => [g x]
  | x :: y :: r => x :: modLast g (y :: r)

theorem dropTrailWs_all_ws_no_colon {l : List Char} (h : dropTrailWs l = []) :
    splitColon l = [l] := by
  induction l with
  | nil => rfl
  | cons c r ih =>
    rw [dropTrailWs_cons] at h
    cases hr : dropTrailWs r with
    | nil =>
      rw [hr] at h
      simp only [] at h
      by_cases hw : pyWs c
      · have hc : ¬ c = ':' := by
          intro hcc
          rw [hcc] at hw
          simp [pyWs] at hw
        rw [splitColon_cons, if_neg hc, ih hr]
      · rw [if_neg hw] at h
        cases h
    | cons d ds =>
      rw [hr] at h
      simp only [] at h
      cases h

theorem modLast_cons_ne_nil (g : List Char → List Char) (a : List Char)
    {l : List (List Char)} (h : l ≠ []) : modLast g (a :: l) = a :: modLast g l := by
  cases l with
  | nil => exact absurd rfl h
  | cons x xs => rfl

theorem splitColon_singleton {l x : List Char} (h : splitColon l = [x]) : x = l := by
  induction l generalizing x with
  | nil =>
    simp [splitColon] at h
    simp [h]
  | cons c r ih =>
    rw [splitColon_cons] at h
    by_cases hc : c = ':'
    · rw [if_pos hc] at h
      cases hx : splitColon r with
      | nil => exact absurd hx (splitColon_ne_nil r)
      | cons f fs =>
        rw [hx] at h
        simp at h
    · rw [if_neg hc] at h
      cases hx : splitColon r with
      | nil => exact absurd hx (splitColon_ne_nil r)
      | cons f fs =>
        rw [hx] at h
        simp only [List.cons.injEq] at h
        obtain ⟨h1, h2⟩ := h
        have hf : f = r := by
          apply ih
          rw [hx, h2]
        rw [← h1, hf]

theorem dropTrailWs_cons_ne {f : List Char} (c : Char) (h : dropTrailWs f ≠ []) :
    dropTrailWs (c :: f) = c :: dropTrailWs f := by
  rw [dropTrailWs_cons]
  cases hx : dropTrailWs f with
  | nil => exact absurd hx h
  | cons d ds => rfl

theorem splitColon_cons_colon (cs : List Char) :
    splitColon (':' :: cs) = [] :: splitColon cs := by
  rw [splitColon_cons]
  simp

theorem splitColon_cons_head {c : Char} (hc : ¬ c = ':') (cs f : List Char)
    (fs : List (List Char)) (h : splitColon cs = f :: fs) :
    splitColon (c :: cs) = (c :: f) :: fs := by
  rw [splitColon_cons, if_neg hc, h]

theorem splitColon_dropTrailWs (l : List Char) :
    splitColon (dropTrailWs l) = modLast dropTrailWs (splitColon l) := by
  induction l with
  | nil => rfl
  | cons c r ih =>
    rw [dropTrailWs_cons]
    cases hr : dropTrailWs r with
    | nil =>
      have hsr : splitColon r = [r] := dropTrailWs_all_ws_no_colon hr
      by_cases hw : pyWs c
      · have hc : ¬ c = ':' := by
          intro hcc
          rw [hcc] at hw
          simp [pyWs] at hw
        rw [if_pos hw, splitColon_cons, if_neg hc, hsr]
        simp only [modLast, splitColon]
        rw [dropTrailWs_cons, hr]
        simp [hw]
      · rw [if_neg hw]
        by_cases hc : c = ':'
        · subst hc
          rw [splitColon_cons, if_pos rfl, splitColon_cons, if_pos rfl, hsr]
          simp only [splitColon]
          rw [modLast_cons_ne_nil _ _ (by simp)]
          simp [modLast, hr]
        · rw [splitColon_cons, if_neg hc, splitColon_cons, if_neg hc, hsr]
          simp only [splitColon, modLast]
          rw [dropTrailWs_cons, hr]
          simp [hw]
    | cons d ds =>
      simp only []
      rw [hr] at ih
      by_cases hc : c = ':'
      · subst hc
        rw [splitColon_cons_colon, splitColon_cons_colon, ih,
          modLast_cons_ne_nil _ _ (splitColon_ne_nil r)]
      · cases hx : splitColon r with
        | nil => exact absurd hx (splitColon_ne_nil r)
        | cons f fs =>
          rw [hx] at ih
          rw [splitColon_cons_head hc r f fs hx]
          cases fs with
          | nil =>
            have hf : f = r := splitColon_singleton hx
            simp only [modLast] at ih
            rw [splitColon_cons_head hc (d :: ds) (dropTrailWs f) [] ih]
            have hdf : dropTrailWs f ≠ [] := by
              rw [hf, hr]
              simp
            simp only [modLast]
            rw [dropTrailWs_cons_ne c hdf]
          | cons f2 fs2 =>
            have e0 : modLast dropTrailWs (f :: f2 :: fs2) =
                f :: modLast dropTrailWs (f2 :: fs2) :=
              modLast_cons_ne_nil _ _ (by simp)
            rw [e0] at ih
            rw [splitColon_cons_head hc (d :: ds) f (modLast dropTrailWs (f2 :: fs2)) ih]
            have e : modLast dropTrailWs ((c :: f) :: f2 :: fs2) =
                (c :: f) :: modLast dropTrailWs (f2 :: fs2) :=
              modLast_cons_ne_nil _ _ (by simp)
            rw [e]

theorem modLast_ne_nil (g : List Char → List Char) {l : List (List Char)}
    (h : l ≠ []) : modLast g l ≠ [] := by
  cases l with
  | nil => exact absurd rfl h
  | cons x xs =>
    cases xs with
    | nil => simp [modLast]
    | cons y r => simp [modLast]

theorem modLast_length (g : List Char → List Char) (l : List (List Char)) :
    (modLast g l).length = l.length := by
  induction l with
  | nil => rfl
  | cons x xs ih =>
    cases xs with
    | nil => rfl
    | cons y r =>
      have e : modLast g (x :: y :: r) = x :: modLast g (y :: r) := rfl
      simp [e, ih]

/-- A field is numeric when Python `float()` accepts it. -/
def numeric_field (f : List Char) : Bool := float_accepts f

/-- The claim's shape predicate: after comma-to-dot replacement the string
consists of 1 to 3 colon-separated numeric fields (a colon-split always has at
least one field, so only the upper bound appears). -/
def time_shaped (s : String) : Bool :=
  let parts := splitColon (commaToDot s.data)
  decide (parts.length ≤ 3) && parts.all numeric_field

theorem timeFromParts_long {parts : List (List Char)} (h : 3 < parts.length) :
    timeFromParts parts = 0 := by
  cases parts with
  | nil => simp at h
  | cons a t1 =>
    cases t1 with
    | nil => simp at h
    | cons b t2 =>
      cases t2 with
      | nil => simp at h
      | cons c t3 =>
        cases t3 with
        | nil => simp at h
        | cons d r => rfl

theorem timeFromParts_stripped_zero {parts : List (List Char)}
    (hbad : ¬ (parts.length ≤ 3 ∧ ∀ f ∈ parts, float_accepts f = true)) :
    timeFromParts (modLast dropTrailWs (parts.modifyHead dropWs)) = 0 := by
  by_cases hlen : parts.length ≤ 3
  · have hex : ∃ f ∈ parts, float_accepts f = false := by
      push_neg at hbad
      obtain ⟨f, hf, hns⟩ := hbad hlen
      exact ⟨f, hf, by simpa using hns⟩
    obtain ⟨f, hf, hfalse⟩ := hex
    cases parts with
    | nil => simp at hf
    | cons a t1 =>
      cases t1 with
      | nil =>
        simp only [List.mem_singleton] at hf
        subst hf
        have e : modLast dropTrailWs (List.modifyHead dropWs [f]) =
            [dropTrailWs (dropWs f)] := rfl
        have e2 : timeFromParts [dropTrailWs (dropWs f)] =
            (if float_accepts (dropTrailWs (dropWs f)) then
              (parsePyFloat (dropTrailWs (dropWs f))).getD 0 else 0) := rfl
        rw [e, e2, float_accepts_dropTrailWs, float_accepts_dropWs, hfalse]
        rfl
      | cons b t2 =>
        cases t2 with
        | nil =>
          have e : modLast dropTrailWs (List.modifyHead dropWs [a, b]) =
              [dropWs a, dropTrailWs b] := rfl
          have e2 : timeFromParts [dropWs a, dropTrailWs b] =
              (if float_accepts (dropWs a) && float_accepts (dropTrailWs b) then
                (parsePyFloat (dropWs a)).getD 0 * 60 +
                  (parsePyFloat (dropTrailWs b)).getD 0
              else 0) := rfl
          rw [e, e2, float_accepts_dropWs, float_accepts_dropTrailWs]
          simp only [List.mem_cons, List.not_mem_nil, or_false] at hf
          rcases hf with rfl | rfl
          · simp [hfalse]
          · simp [hfalse]
        | cons c t3 =>
          cases t3 with
          | nil =>
            have e : modLast dropTrailWs (List.modifyHead dropWs [a, b, c]) =
                [dropWs a, b, dropTrailWs c] := rfl
            have e2 : timeFromParts [dropWs a, b, dropTrailWs c] =
                (if float_accepts (dropWs a) && float_accepts b &&
                    float_accepts (dropTrailWs c) then
                  (parsePyFloat (dropWs a)).getD 0 * 3600 +
                    (parsePyFloat b).getD 0 * 60 +
                    (parsePyFloat (dropTrailWs c)).getD 0
                else 0) := rfl
            rw [e, e2, float_accepts_dropWs, float_accepts_dropTrailWs]
            simp only [List.mem_cons, List.not_mem_nil, or_false] at hf
            rcases hf with rfl | rfl | rfl
            · simp [hfalse]
            · simp [hfalse]
            · simp [hfalse]
          | cons d r =>
            simp at hlen
  · apply timeFromParts_long
    rw [modLast_length, List.length_modifyHead]
    omega

theorem srtFromParts_zero {parts : List (List Char)}
    (hbad : ¬ (parts.length ≤ 3 ∧ ∀ f ∈ parts, float_accepts f = true)) :
    srtFromParts parts = 0 := by
  by_cases hlen : parts.length ≤ 3
  · have hex : ∃ f ∈ parts, float_accepts f = false := by
      push_neg at hbad
      obtain ⟨f, hf, hns⟩ := hbad hlen
      exact ⟨f, hf, by simpa using hns⟩
    obtain ⟨f, hf, hfalse⟩ := hex
    cases parts with
    | nil => simp at hf
    | cons a t1 =>
      cases t1 with
      | nil =>
        simp only [List.mem_singleton] at hf
        subst hf
        have e : srtFromParts [f] =
            (if float_accepts f then (parsePyFloat f).getD 0 else 0) := by
          simp [srtFromParts]
        rw [e, hfalse]
        rfl
      | cons b t2 =>
        cases t2 with
        | nil =>
          have e : srtFromParts [a, b] =
              (if float_accepts a && float_accepts b then
                (parsePyFloat a).getD 0 * 60 + (parsePyFloat b).getD 0
              else 0) := by
            simp [srtFromParts, List.getD]
          rw [e]
          simp only [List.mem_cons, List.not_mem_nil, or_false] at hf
          rcases hf with rfl | rfl
          · simp [hfalse]
          · simp [hfalse]
        | cons c t3 =>
          cases t3 with
          | nil =>
            have e : srtFromParts [a, b, c] =
                (if float_accepts a && float_accepts b && float_accepts c then
                  (parsePyFloat a).getD 0 * 3600 + (parsePyFloat b).getD 0 * 60 +
                    (parsePyFloat c).getD 0
                else 0) := by
              simp [srtFromParts, List.getD]
            rw [e]
            simp only [List.mem_cons, List.not_mem_nil, or_false] at hf
            rcases hf with rfl | rfl | rfl
            · simp [hfalse]
            · simp [hfalse]
            · simp [hfalse]
          | cons d r =>
            simp at hlen
  · have h3 : parts.length ≠ 3 := by omega
    have h2 : parts.length ≠ 2 := by omega
    have h1 : parts.length ≠ 1 := by omega
    simp [srtFromParts, h1, h2, h3]

theorem parse_time_str {s : String} (h : ¬ s = "") :
    parse_time (.str s) = timeFromParts (splitColon (pyStrip (commaToDot s.data))) := by
  simp [parse_time, pyTruthy, h]

theorem srt_time_to_seconds_str (s : String) :
    srt_time_to_seconds (.str s) = srtFromParts (splitColon (commaToDot s.data)) := rfl

theorem splitColon_pyStrip (l : List Char) :
    splitColon (pyStrip l) =
      modLast dropTrailWs ((splitColon l).modifyHead dropWs) := by
  rw [pyStrip, splitColon_dropTrailWs, splitColon_dropWs]

/-- C9: the time parsers are total and map every string that is not 1–3
colon-separated numeric fields (after comma-to-dot replacement) to `0.0`.
Totality is by construction of the embedding (`parse_time` and
`srt_time_to_seconds` are functions into `ℚ`); this theorem settles the
malformed-string clause for both parsers. -/
theorem time_parsers_malformed_to_zero (s : String)
    (h : time_shaped s = false) :
    parse_time (.str s) = 0 ∧ srt_time_to_seconds (.str s) = 0 := by
  have hbad : ¬ ((splitColon (commaToDot s.data)).length ≤ 3 ∧
      ∀ f ∈ splitColon (commaToDot s.data), float_accepts f = true) := by
    rintro ⟨h1, h2⟩
    rw [time_shaped] at h
    simp only [Bool.and_eq_false_iff] at h
    rcases h with hd | ha
    · simp at hd
      omega
    · have hall : (splitColon (commaToDot s.data)).all numeric_field = true := by
        rw [List.all_eq_true]
        intro f hfmem
        exact h2 f hfmem
      rw [hall] at ha
      cases ha
  constructor
  · by_cases hs : s = ""
    · subst hs
      simp [parse_time, pyTruthy]
    · rw [parse_time_str hs, splitColon_pyStrip]
      exact timeFromParts_stripped_zero hbad
  · rw [srt_time_to_seconds_str]
    exact srtFromParts_zero hbad

/-- Witness for C9 at the concrete malformed strings `"12:xy"` (a non-numeric
field) and `"1:2:3:4"` (four fields). -/
theorem time_parsers_malformed_witness :
    parse_time (.str "12:xy") = 0 ∧ srt_time_to_seconds (.str "12:xy") = 0 ∧
      parse_time (.str "1:2:3:4") = 0 ∧ srt_time_to_seconds (.str "1:2:3:4") = 0 := by
  refine ⟨(time_parsers_malformed_to_zero "12:xy" (by decide)).1,
    (time_parsers_malformed_to_zero "12:xy" (by decide)).2,
    (time_parsers_malformed_to_zero "1:2:3:4" (by decide)).1,
    (time_parsers_malformed_to_zero "1:2:3:4" (by decide)).2⟩

/-! ## SRT formatting under IEEE double semantics (claim C5) -/

theorem int_log_two_eq {x : ℚ} {k : ℤ} (hx : 0 < x)
    (h1 : (2:ℚ)^k ≤ x) (h2 : x < (2:ℚ)^(k+1)) : Int.log 2 x = k := by
  have h1' : ((2:ℕ):ℚ)^k ≤ x := by exact_mod_cast h1
  have h2' : x < ((2:ℕ):ℚ)^(k+1) := by exact_mod_cast h2
  have ha : k ≤ Int.log 2 x := (Int.zpow_le_iff_le_log (by norm_num) hx).mp h1'
  have hb : Int.log 2 x < k + 1 := (Int.lt_zpow_iff_log_lt (by norm_num) hx).mp h2'
  omega

theorem roundDouble_eval {x : ℚ} {k m : ℤ} (hx : 0 < x)
    (h1 : (2:ℚ)^k ≤ x) (h2 : x < (2:ℚ)^(k+1))
    (hm : pyRound (x * (2:ℚ)^((52:ℤ) - k)) = m) :
    roundDouble x = (m : ℚ) / (2:ℚ)^((52:ℤ) - k) := by
  have hlog : Int.log 2 |x| = k := by
    rw [abs_of_pos hx]
    exact int_log_two_eq hx h1 h2
  rw [roundDouble, if_neg (ne_of_gt hx)]
  show (if x < 0 then (-1:ℚ) else 1) *
      ((pyRound (|x| * (2:ℚ)^((52:ℤ) - Int.log 2 |x|)) : ℤ) : ℚ) /
      (2:ℚ)^((52:ℤ) - Int.log 2 |x|) = _
  rw [hlog, abs_of_pos hx, hm, if_neg (not_lt.mpr (le_of_lt hx))]
  rw [one_mul]

/-- The double nearest the literal `23.4`: `3293257227514675 * 2 ^ (-47)`,
slightly *below* 23.4. -/
theorem roundDouble_23_4 :
    roundDouble ((117:ℚ)/5) = 3293257227514675/140737488355328 := by
  have h := roundDouble_eval (x := (117:ℚ)/5) (k := 4) (m := 6586514455029350)
    (by norm_num) (by norm_num) (by norm_num) (by norm_num [pyRound])
  rw [h]
  norm_num

/-- The millisecond product for 23.4 needs no rounding: `399.999…` with a
46-bit significand is exactly representable. -/
theorem roundDouble_fix_a :
    roundDouble ((7036874417766375:ℚ)/17592186044416) =
      7036874417766375/17592186044416 := by
  have h := roundDouble_eval (x := (7036874417766375:ℚ)/17592186044416)
    (k := 8) (m := 7036874417766375)
    (by norm_num) (by norm_num) (by norm_num) (by norm_num [pyRound])
  rw [h]
  norm_num

/-- The double nearest the literal `3665.123`: `8059690711458513 * 2 ^ (-41)`. -/
theorem roundDouble_3665 :
    roundDouble ((3665123:ℚ)/1000) = 8059690711458513/2199023255552 := by
  have h := roundDouble_eval (x := (3665123:ℚ)/1000) (k := 11)
    (m := 8059690711458513)
    (by norm_num) (by norm_num) (by norm_num) (by norm_num [pyRound])
  rw [h]
  norm_num

/-- The millisecond product for 3665.123 is exactly representable. -/
theorem roundDouble_fix_b :
    roundDouble ((33809982554125:ℚ)/274877906944) =
      33809982554125/274877906944 := by
  have h := roundDouble_eval (x := (33809982554125:ℚ)/274877906944)
    (k := 6) (m := 8655355533856000)
    (by norm_num) (by norm_num) (by norm_num) (by norm_num [pyRound])
  rw [h]
  norm_num

theorem srt_format_23_4 :
    seconds_to_srt_time (roundDouble ((117:ℚ)/5)) = "00:00:23,399" := by
  rw [roundDouble_23_4]
  have h : seconds_to_srt_time ((3293257227514675:ℚ)/140737488355328) =
      pad2 0 ++ ":" ++ pad2 0 ++ ":" ++ pad2 23 ++ "," ++ pad3 399 := by
    norm_num [seconds_to_srt_time, pyInt, pyFloorDiv, pyMod, roundDouble_fix_a]
  rw [h]
  decide

theorem srt_format_3665 :
    seconds_to_srt_time (roundDouble ((3665123:ℚ)/1000)) = "01:01:05,123" := by
  rw [roundDouble_3665]
  have h : seconds_to_srt_time ((8059690711458513:ℚ)/2199023255552) =
      pad2 1 ++ ":" ++ pad2 1 ++ ":" ++ pad2 5 ++ "," ++ pad3 123 := by
    norm_num [seconds_to_srt_time, pyInt, pyFloorDiv, pyMod, roundDouble_fix_b]
  rw [h]
  decide

/-- C5 (corrected): under IEEE-754 binary64 semantics the round-trip
`seconds_to_srt_time (srt_time_to_seconds x) = seconds_to_srt_time x` holds at
both representative values (on a number `srt_time_to_seconds` is
`float(value)`, the identity), and `3665.123` formats as `"01:01:05,123"` —
but `23.4` formats as `"00:00:23,399"`, not the claimed `"00:00:23,400"`: the
double nearest 23.4 is `3293257227514675 * 2 ^ (-47)`, slightly below 23.4, its
fractional part times 1000 is `399.999…`, and `int()` truncates to 399. -/
theorem srt_time_round_trip_float :
    seconds_to_srt_time (srt_time_to_seconds (.num (roundDouble (117/5)))) =
        seconds_to_srt_time (roundDouble (117/5)) ∧
      seconds_to_srt_time (srt_time_to_seconds (.num (roundDouble (3665123/1000)))) =
        seconds_to_srt_time (roundDouble (3665123/1000)) ∧
      seconds_to_srt_time (roundDouble (117/5)) = "00:00:23,399" ∧
      seconds_to_srt_time (roundDouble (3665123/1000)) = "01:01:05,123" :=
  ⟨rfl, rfl, srt_format_23_4, srt_format_3665⟩

/-- C5 counterexample: the claim's named equality
`seconds_to_srt_time(23.4) = "00:00:23,400"` is false of the program — the
truncating millisecond computation lands one below on the double `23.4`
(the repository's `test_time_debug*.py` scripts probe exactly this). -/
theorem srt_round_trip_counterexample :
    seconds_to_srt_time (roundDouble (117/5)) = "00:00:23,399" ∧
      seconds_to_srt_time (roundDouble (117/5)) ≠ "00:00:23,400" := by
  refine ⟨srt_format_23_4, ?_⟩
  rw [srt_format_23_4]
  decide

/-! ## Structural lemmas about the normalizer -/

theorem norm_loop_cons2 {μ : Type} (ctx : NormCtx) (seg b : Segment μ)
    (r : List (Segment μ)) (ct : ℚ) :
    norm_loop ctx (seg :: b :: r) ct =
      { seg with
          start_time := TimeVal.num (norm_step_current ctx ct)
          end_time := TimeVal.num (norm_step_end ctx seg (b :: r).length ct)
          orig_duration := none } ::
        norm_loop ctx (b :: r) (norm_step_end ctx seg (b :: r).length ct) := rfl

theorem norm_loop_single {μ : Type} (ctx : NormCtx) (seg : Segment μ) (ct : ℚ) :
    norm_loop ctx [seg] ct =
      [{ seg with
          start_time := TimeVal.num (norm_step_current ctx ct)
          end_time := TimeVal.num ctx.duration
          orig_duration := none }] := rfl

theorem norm_loop_length {μ : Type} (ctx : NormCtx) (l : List (Segment μ)) (ct : ℚ) :
    (norm_loop ctx l ct).length = l.length := by
  induction l generalizing ct with
  | nil => rfl
  | cons seg rest ih =>
    cases rest with
    | nil => rfl
    | cons b r =>
      rw [norm_loop_cons2, List.length_cons, ih]
      simp

theorem norm_loop_ne_nil {μ : Type} (ctx : NormCtx) {l : List (Segment μ)}
    (h : l ≠ []) (ct : ℚ) : norm_loop ctx l ct ≠ [] := by
  intro hc
  have := norm_loop_length ctx l ct
  rw [hc] at this
  simp at this
  exact h (List.length_eq_zero.mp this.symm)

theorem chain_starts_aux_length {μ : Type} (p : TimeVal) (l : List (Segment μ)) :
    (chain_starts_aux p l).length = l.length := by
  induction l generalizing p with
  | nil => rfl
  | cons b rest ih =>
    simp only [chain_starts_aux, List.length_cons]
    rw [ih]

theorem chain_starts_length {μ : Type} (l : List (Segment μ)) :
    (chain_starts l).length = l.length := by
  cases l with
  | nil => rfl
  | cons a rest =>
    simp only [chain_starts, List.length_cons]
    rw [chain_starts_aux_length]

theorem chain_starts_aux_ends {μ : Type} (p : TimeVal) (l : List (Segment μ)) :
    (chain_starts_aux p l).map Segment.end_time = l.map Segment.end_time := by
  induction l generalizing p with
  | nil => rfl
  | cons b rest ih =>
    simp only [chain_starts_aux, List.map_cons]
    rw [ih]

theorem chain_starts_ends {μ : Type} (l : List (Segment μ)) :
    (chain_starts l).map Segment.end_time = l.map Segment.end_time := by
  cases l with
  | nil => rfl
  | cons a rest =>
    simp only [chain_starts, List.map_cons]
    rw [chain_starts_aux_ends]

/-- Consecutive starts equal the previous ends (TimeVal-level). -/
def starts_follow {μ : Type} : List (Segment μ) → Prop
  | [] => True
  | [_] => True
  | a :: b :: r => b.start_time = a.end_time ∧ starts_follow (b :: r)

theorem chain_starts_aux_head_start {μ : Type} (p : TimeVal) {l : List (Segment μ)}
    (h : l ≠ []) : (chain_starts_aux p l).head?.map Segment.start_time = some p := by
  cases l with
  | nil => exact absurd rfl h
  | cons b rest => rfl

theorem chain_starts_aux_follows {μ : Type} (p : TimeVal) (l : List (Segment μ)) :
    starts_follow (chain_starts_aux p l) := by
  induction l generalizing p with
  | nil => trivial
  | cons b rest ih =>
    simp only [chain_starts_aux]
    cases rest with
    | nil => trivial
    | cons b2 r2 =>
      have hh := ih ({ b with start_time := p } : Segment μ).end_time
      simp only [chain_starts_aux] at hh ⊢
      exact ⟨rfl, hh⟩

theorem chain_starts_follows {μ : Type} (l : List (Segment μ)) :
    starts_follow (chain_starts l) := by
  cases l with
  | nil => trivial
  | cons a rest =>
    simp only [chain_starts]
    cases rest with
    | nil => trivial
    | cons b r2 =>
      have hh := chain_starts_aux_follows (μ := μ) a.end_time (b :: r2)
      simp only [chain_starts_aux] at hh ⊢
      exact ⟨rfl, hh⟩

theorem norm_step_current_zero (ctx : NormCtx) : norm_step_current ctx 0 = 0 := by
  rw [norm_step_current, if_neg]
  rintro ⟨_, hlt⟩
  exact absurd hlt (by norm_num)

theorem norm_loop_head_start_zero {μ : Type} (ctx : NormCtx) (seg : Segment μ)
    (rest : List (Segment μ)) :
    (norm_loop ctx (seg :: rest) 0).head?.map Segment.start_time =
      some (TimeVal.num 0) := by
  cases rest with
  | nil => simp [norm_loop_single, norm_step_current_zero]
  | cons b r => simp [norm_loop_cons2, norm_step_current_zero]

theorem norm_loop_getLast_end {μ : Type} (ctx : NormCtx) :
    ∀ (l : List (Segment μ)), l ≠ [] → ∀ (ct : ℚ),
      (norm_loop ctx l ct).getLast?.map Segment.end_time =
        some (TimeVal.num ctx.duration)
  | [], h => absurd rfl h
  | [seg], _ => by
    intro ct
    simp [norm_loop_single]
  | seg :: b :: r, _ => by
    intro ct
    rw [norm_loop_cons2]
    have htail := norm_loop_getLast_end ctx (b :: r) (by simp)
      (norm_step_end ctx seg (b :: r).length ct)
    cases htl : norm_loop ctx (b :: r) (norm_step_end ctx seg (b :: r).length ct) with
    | nil => exact absurd htl (norm_loop_ne_nil ctx (by simp) _)
    | cons x xs =>
      rw [htl] at htail
      rw [List.getLast?_cons_cons]
      exact htail

/-- Consecutive parsed starts equal the previous parsed ends. -/
def tilesQ {μ : Type} : List (Segment μ) → Prop
  | [] => True
  | [_] => True
  | a :: b :: r => startQ b = endQ a ∧ tilesQ (b :: r)

theorem starts_follow_tilesQ {μ : Type} :
    ∀ {l : List (Segment μ)}, starts_follow l → tilesQ l
  | [], _ => trivial
  | [_], _ => trivial
  | a :: b :: r, h => by
    obtain ⟨h1, h2⟩ := h
    exact ⟨by rw [startQ, endQ, h1], starts_follow_tilesQ h2⟩

theorem chain_starts_head? {μ : Type} (l : List (Segment μ)) :
    (chain_starts l).head? = l.head? := by
  cases l <;> rfl

theorem chain_starts_getLast_end {μ : Type} (l : List (Segment μ)) :
    (chain_starts l).getLast?.map Segment.end_time =
      l.getLast?.map Segment.end_time := by
  have h := chain_starts_ends l
  have h1 := List.getLast?_map Segment.end_time (chain_starts l)
  have h2 := List.getLast?_map Segment.end_time l
  rw [← h1, ← h2, h]

theorem normalize_segments_of_ne {μ : Type} {segs : List (Segment μ)}
    (h : segs ≠ []) (duration : ℚ) (analysis : Analysis) :
    normalize_segments segs duration analysis =
      chain_starts
        (norm_loop (norm_ctx segs duration analysis) (norm_phase1 segs) 0) := by
  rw [normalize_segments, if_neg]
  simpa using h

theorem norm_phase1_length {μ : Type} (segs : List (Segment μ)) :
    (norm_phase1 segs).length = segs.length := by
  simp [norm_phase1]

theorem norm_phase1_ne_nil {μ : Type} {segs : List (Segment μ)} (h : segs ≠ []) :
    norm_phase1 segs ≠ [] := by
  intro hc
  have := norm_phase1_length segs
  rw [hc] at this
  exact h (List.length_eq_zero.mp this.symm)

/-- C1 (tiling invariant): for a non-empty segment list and positive duration,
the normalized output has the same length, its first parsed `start_time` is
exactly 0, its last parsed `end_time` is exactly the total duration (hence
within 1e-6), and every segment's `start_time` equals its predecessor's
`end_time` with no gap or overlap. -/
theorem normalize_segments_tiling {μ : Type} (segs : List (Segment μ))
    (duration : ℚ) (analysis : Analysis) (hne : segs ≠ []) (hdur : 0 < duration) :
    (normalize_segments segs duration analysis).length = segs.length ∧
      (normalize_segments segs duration analysis).head?.map startQ = some 0 ∧
      (normalize_segments segs duration analysis).getLast?.map endQ =
        some duration ∧
      tilesQ (normalize_segments segs duration analysis) := by
  rw [normalize_segments_of_ne hne duration analysis]
  set ctx := norm_ctx segs duration analysis with hctx
  have hp1 : norm_phase1 segs ≠ [] := norm_phase1_ne_nil hne
  refine ⟨?_, ?_, ?_, ?_⟩
  · rw [chain_starts_length, norm_loop_length, norm_phase1_length]
  · cases hps : norm_phase1 segs with
    | nil => exact absurd hps hp1
    | cons a rest =>
      have hh := norm_loop_head_start_zero ctx a rest
      rw [chain_starts_head?]
      cases hnl : norm_loop ctx (a :: rest) 0 with
      | nil => exact absurd hnl (norm_loop_ne_nil ctx (by simp) 0)
      | cons x xs =>
        rw [hnl] at hh
        simp only [List.head?_cons, Option.map_some] at hh ⊢
        have hx : x.start_time = TimeVal.num 0 := by
          injection hh
        simp [startQ, hx, parse_time_num]
  · have hl := norm_loop_getLast_end ctx (norm_phase1 segs) hp1 0
    have hc := chain_starts_getLast_end (norm_loop ctx (norm_phase1 segs) 0)
    rw [hl] at hc
    have hdq : ctx.duration = duration := rfl
    cases hgl : (chain_starts (norm_loop ctx (norm_phase1 segs) 0)).getLast? with
    | none =>
      rw [hgl] at hc
      exact Option.noConfusion hc
    | some seg =>
      rw [hgl] at hc
      have hx : seg.end_time = TimeVal.num ctx.duration := by
        injection hc
      simp [endQ, hx, parse_time_num, hdq]
  · exact starts_follow_tilesQ (chain_starts_follows _)

/-- Witness for C1 on a concrete two-segment list. -/
theorem normalize_segments_tiling_witness :
    (normalize_segments
        [mkSeg "a" (.num 0) (.num 4), mkSeg "b" (.num 4) (.num 10)] 10
        emptyAnalysis).length = 2 ∧
      (normalize_segments
          [mkSeg "a" (.num 0) (.num 4), mkSeg "b" (.num 4) (.num 10)] 10
          emptyAnalysis).head?.map startQ = some 0 ∧
      (normalize_segments
          [mkSeg "a" (.num 0) (.num 4), mkSeg "b" (.num 4) (.num 10)] 10
          emptyAnalysis).getLast?.map endQ = some 10 ∧
      tilesQ (normalize_segments
          [mkSeg "a" (.num 0) (.num 4), mkSeg "b" (.num 4) (.num 10)] 10
          emptyAnalysis) :=
  normalize_segments_tiling _ 10 emptyAnalysis (by simp) (by norm_num)

/-- The fields of a segment other than its times and the popped temporary. -/
def segMeta {μ : Type} (s : Segment μ) : String × String × String × μ :=
  (s.id, s.effect, s.transition, s.meta)

theorem norm_loop_meta {μ : Type} (ctx : NormCtx) :
    ∀ (l : List (Segment μ)) (ct : ℚ),
      (norm_loop ctx l ct).map segMeta = l.map segMeta
  | [], _ => rfl
  | [seg], ct => by simp [norm_loop_single, segMeta]
  | seg :: b :: r, ct => by
    rw [norm_loop_cons2]
    simp only [List.map_cons]
    rw [norm_loop_meta ctx (b :: r)]
    rfl

theorem norm_loop_orig {μ : Type} (ctx : NormCtx) :
    ∀ (l : List (Segment μ)) (ct : ℚ),
      (norm_loop ctx l ct).map Segment.orig_duration =
        List.replicate l.length none
  | [], _ => rfl
  | [seg], ct => by simp [norm_loop_single, List.replicate]
  | seg :: b :: r, ct => by
    rw [norm_loop_cons2]
    simp only [List.map_cons, List.length_cons]
    rw [norm_loop_orig ctx (b :: r)]
    rfl

theorem chain_starts_aux_meta {μ : Type} (p : TimeVal) (l : List (Segment μ)) :
    (chain_starts_aux p l).map segMeta = l.map segMeta := by
  induction l generalizing p with
  | nil => rfl
  | cons b rest ih =>
    simp only [chain_starts_aux, List.map_cons]
    rw [ih]
    rfl

theorem chain_starts_meta {μ : Type} (l : List (Segment μ)) :
    (chain_starts l).map segMeta = l.map segMeta := by
  cases l with
  | nil => rfl
  | cons a rest =>
    simp only [chain_starts, List.map_cons]
    rw [chain_starts_aux_meta]

theorem chain_starts_aux_orig {μ : Type} (p : TimeVal) (l : List (Segment μ)) :
    (chain_starts_aux p l).map Segment.orig_duration =
      l.map Segment.orig_duration := by
  induction l generalizing p with
  | nil => rfl
  | cons b rest ih =>
    simp only [chain_starts_aux, List.map_cons]
    rw [ih]

theorem chain_starts_orig {μ : Type} (l : List (Segment μ)) :
    (chain_starts l).map Segment.orig_duration = l.map Segment.orig_duration := by
  cases l with
  | nil => rfl
  | cons a rest =>
    simp only [chain_starts, List.map_cons]
    rw [chain_starts_aux_orig]

theorem norm_phase1_meta {μ : Type} (segs : List (Segment μ)) :
    (norm_phase1 segs).map segMeta = segs.map segMeta := by
  simp [norm_phase1, segMeta]

/-- C10 (frame effect): normalization never adds, drops or reorders segments
and touches only `start_time`/`end_time`: the `id`, `effect`, `transition` and
opaque metadata of every segment are preserved pointwise (which also forces
equal lengths and order), and the temporary `_orig_duration` key is absent
from every output segment. -/
theorem normalize_segments_preserves_records {μ : Type}
    (segs : List (Segment μ)) (duration : ℚ) (analysis : Analysis) :
    (normalize_segments segs duration analysis).map segMeta = segs.map segMeta ∧
      (normalize_segments segs duration analysis).map Segment.orig_duration =
        List.replicate segs.length none := by
  by_cases h : segs = []
  · subst h
    simp [normalize_segments]
  · rw [normalize_segments_of_ne h duration analysis]
    constructor
    · rw [chain_starts_meta, norm_loop_meta, norm_phase1_meta]
    · rw [chain_starts_orig, norm_loop_orig, norm_phase1_length]

/-! ## Duration bounds (claim C3) -/

theorem norm_step_current_of_ne_beat {ctx : NormCtx}
    (hmode : ctx.mode ≠ TimingMode.beatDriven) (ct : ℚ) :
    norm_step_current ctx ct = ct := by
  rw [norm_step_current, if_neg]
  rintro ⟨hm, _⟩
  exact hmode hm

theorem norm_step_end_le {μ : Type} (ctx : NormCtx) (seg : Segment μ)
    (n : ℕ) (ct : ℚ) :
    norm_step_end ctx seg n ct ≤ ctx.duration - (n : ℚ) * (1/2) := by
  simp only [norm_step_end]
  exact min_le_right _ _

theorem norm_step_end_ge {μ : Type} {ctx : NormCtx}
    (hmode : ctx.mode ≠ TimingMode.beatDriven) (seg : Segment μ) (n : ℕ) {ct : ℚ}
    (h : ct + ((n : ℚ) + 1) * (1/2) ≤ ctx.duration) :
    ct + 1/2 ≤ norm_step_end ctx seg n ct := by
  simp only [norm_step_end, norm_step_current_of_ne_beat hmode]
  refine le_min (le_max_right _ _) ?_
  linarith

/-- Every non-final segment has parsed duration at least `MIN_DURATION = 0.5`
and parsed `end_time` at most `duration - remaining * MIN_DURATION`. -/
def nonfinal_bounds {μ : Type} (duration : ℚ) : List (Segment μ) → Prop
  | [] => True
  | [_] => True
  | a :: b :: r =>
    (1/2 ≤ endQ a - startQ a ∧
      endQ a ≤ duration - (((r.length + 1 : ℕ)) : ℚ) * (1/2)) ∧
    nonfinal_bounds duration (b :: r)

theorem norm_loop_head_start_of_ne_beat {μ : Type} {ctx : NormCtx}
    (hmode : ctx.mode ≠ TimingMode.beatDriven) (seg : Segment μ)
    (rest : List (Segment μ)) (ct : ℚ) :
    (norm_loop ctx (seg :: rest) ct).head?.map Segment.start_time =
      some (TimeVal.num ct) := by
  cases rest with
  | nil => simp [norm_loop_single, norm_step_current_of_ne_beat hmode]
  | cons b r => simp [norm_loop_cons2, norm_step_current_of_ne_beat hmode]

theorem norm_loop_follows_of_ne_beat {μ : Type} {ctx : NormCtx}
    (hmode : ctx.mode ≠ TimingMode.beatDriven) :
    ∀ (l : List (Segment μ)) (ct : ℚ), starts_follow (norm_loop ctx l ct)
  | [], _ => trivial
  | [seg], ct => trivial
  | seg :: b :: r, ct => by
    rw [norm_loop_cons2]
    have htail := norm_loop_follows_of_ne_beat hmode (b :: r)
      (norm_step_end ctx seg (b :: r).length ct)
    have hhead := norm_loop_head_start_of_ne_beat hmode b r
      (norm_step_end ctx seg (b :: r).length ct)
    cases hnl : norm_loop ctx (b :: r) (norm_step_end ctx seg (b :: r).length ct) with
    | nil => exact absurd hnl (norm_loop_ne_nil ctx (by simp) _)
    | cons x xs =>
      rw [hnl] at htail hhead
      simp only [List.head?_cons, Option.map_some] at hhead
      have hx : x.start_time = TimeVal.num (norm_step_end ctx seg (b :: r).length ct) := by
        injection hhead
      exact ⟨by rw [hx], htail⟩

theorem seg_set_start_self {μ : Type} (b : Segment μ) {p : TimeVal}
    (h : b.start_time = p) :
    ({ b with start_time := p } : Segment μ) = b := by
  cases b
  simp_all

theorem chain_starts_aux_eq_self {μ : Type} :
    ∀ {l : List (Segment μ)} {p : TimeVal},
      (∀ hd ∈ l.head?, Segment.start_time hd = p) → starts_follow l →
        chain_starts_aux p l = l
  | [], _, _, _ => rfl
  | b :: rest, p, hhead, hfol => by
    have hb : b.start_time = p := hhead b rfl
    rw [chain_starts_aux]
    simp only []
    rw [seg_set_start_self b hb]
    congr 1
    cases rest with
    | nil => rfl
    | cons b2 r2 =>
      obtain ⟨h1, h2⟩ := hfol
      exact chain_starts_aux_eq_self (fun hd hm => by
        simp only [List.head?_cons, Option.mem_def, Option.some.injEq] at hm
        exact hm ▸ h1) h2

theorem chain_starts_eq_self {μ : Type} {l : List (Segment μ)}
    (h : starts_follow l) : chain_starts l = l := by
  cases l with
  | nil => rfl
  | cons a rest =>
    rw [chain_starts]
    congr 1
    cases rest with
    | nil => rfl
    | cons b r2 =>
      obtain ⟨h1, h2⟩ := h
      exact chain_starts_aux_eq_self (fun hd hm => by
        simp only [List.head?_cons, Option.mem_def, Option.some.injEq] at hm
        exact hm ▸ h1) h2

theorem norm_loop_nonfinal_bounds {μ : Type} {ctx : NormCtx}
    (hmode : ctx.mode ≠ TimingMode.beatDriven) :
    ∀ (l : List (Segment μ)) (ct : ℚ),
      ct + (l.length : ℚ) * (1/2) ≤ ctx.duration →
      nonfinal_bounds ctx.duration (norm_loop ctx l ct)
  | [], _, _ => trivial
  | [seg], ct, _ => trivial
  | seg :: b :: r, ct, hinv => by
    rw [norm_loop_cons2]
    set e := norm_step_end ctx seg (b :: r).length ct with he
    have hlen : ((seg :: b :: r).length : ℚ) = ((b :: r).length : ℚ) + 1 := by
      simp
    have hinv2 : ct + (((b :: r).length : ℚ) + 1) * (1/2) ≤ ctx.duration := by
      rw [← hlen]
      exact hinv
    have hge : ct + 1/2 ≤ e := norm_step_end_ge hmode seg (b :: r).length hinv2
    have hle : e ≤ ctx.duration - ((b :: r).length : ℚ) * (1/2) :=
      norm_step_end_le ctx seg (b :: r).length ct
    have htail := norm_loop_nonfinal_bounds hmode (b :: r) e (by
      have : ((b :: r).length : ℚ) * (1/2) = (((b :: r).length : ℚ) - 1) * (1/2) + 1/2 := by
        ring
      linarith)
    cases hnl : norm_loop ctx (b :: r) e with
    | nil => exact absurd hnl (norm_loop_ne_nil ctx (by simp) _)
    | cons x xs =>
      rw [hnl] at htail
      have hlx : xs.length + 1 = r.length + 1 := by
        have h0 := norm_loop_length ctx (b :: r) e
        rw [hnl] at h0
        simp only [List.length_cons] at h0
        exact h0
      constructor
      · constructor
        · simp [startQ, endQ, norm_step_current_of_ne_beat hmode, parse_time_num]
          linarith
        · simp [endQ, parse_time_num, hlx]
          simpa [hlx] using hle
      · exact htail

/-- C3 counterexample: for the three-segment list `c3segs` over duration 30
(structure-driven mode, `effective_max = max 6 (30/3 * 1.3) = 13`), the middle
(non-final) segment's resolved duration is `251/16 - 11/8 = 229/16 = 14.3125`,
exceeding `effective_max`: the remaining-time-pressure nudge of
story_service.py:276–277 pushes `ideal_end` beyond the cap. -/
theorem normalize_bounds_counterexample :
    ¬ (∀ i, i + 1 < (normalize_segments c3segs 30 emptyAnalysis).length →
        endQ ((normalize_segments c3segs 30 emptyAnalysis).getD i dummySeg) -
            startQ ((normalize_segments c3segs 30 emptyAnalysis).getD i dummySeg) ≤
          max 6 (30 / ((c3segs.length : ℕ) : ℚ) * (13/10))) := by
  intro h
  have hlen : (normalize_segments c3segs 30 emptyAnalysis).length = 3 := by
    have h0 := congrArg List.length c3_eval
    simpa using h0
  have h1 := h 1 (by rw [hlen]; norm_num)
  have hseg : ((normalize_segments c3segs 30 emptyAnalysis).map
      (fun s => (startQ s, endQ s))).getD 1 (0, 0) = (11/8, 251/16) := by
    rw [c3_eval]
    rfl
  have hgd : ((normalize_segments c3segs 30 emptyAnalysis).map
      (fun s => (startQ s, endQ s))).getD 1 (0, 0) =
      (startQ ((normalize_segments c3segs 30 emptyAnalysis).getD 1 dummySeg),
       endQ ((normalize_segments c3segs 30 emptyAnalysis).getD 1 dummySeg)) := by
    have hl2 : 1 < (normalize_segments c3segs 30 emptyAnalysis).length := by
      rw [hlen]
      norm_num
    rw [List.getD_eq_getElem _ _ (by simpa using hl2), List.getD_eq_getElem _ _ hl2]
    simp
  rw [hgd] at hseg
  have hs : startQ ((normalize_segments c3segs 30 emptyAnalysis).getD 1 dummySeg) =
      11/8 := by
    have := congrArg Prod.fst hseg
    simpa using this
  have he : endQ ((normalize_segments c3segs 30 emptyAnalysis).getD 1 dummySeg) =
      251/16 := by
    have := congrArg Prod.snd hseg
    simpa using this
  rw [hs, he] at h1
  have hmax : max (6 : ℚ) (30 / ((c3segs.length : ℕ) : ℚ) * (13/10)) = 13 := by
    norm_num [c3segs, mkSeg]
  rw [hmax] at h1
  norm_num at h1

/-- C3 amended: the `effective_max` upper bound is not maintained by the code
(see `normalize_bounds_counterexample`); what holds is the clamp actually
applied at story_service.py:288–290.  Whenever the timing mode is not
beat-driven (so `current_time` is never re-snapped) and the track is long
enough for all segments (`duration ≥ segment_count * MIN_DURATION`), every
non-final segment's resolved duration is at least `MIN_DURATION = 0.5` and its
resolved end leaves `MIN_DURATION` of headroom per remaining segment:
`end_time ≤ duration - remaining * MIN_DURATION`. -/
theorem normalize_bounds_amended {μ : Type} (segs : List (Segment μ))
    (duration : ℚ) (analysis : Analysis)
    (hmode : timing_mode analysis ≠ TimingMode.beatDriven)
    (hdur : (segs.length : ℚ) * (1/2) ≤ duration) :
    nonfinal_bounds duration (normalize_segments segs duration analysis) := by
  by_cases h : segs = []
  · subst h
    simp [normalize_segments]
    trivial
  · rw [normalize_segments_of_ne h duration analysis]
    have hmode2 : (norm_ctx segs duration analysis).mode ≠ TimingMode.beatDriven :=
      hmode
    rw [chain_starts_eq_self (norm_loop_follows_of_ne_beat hmode2 _ _)]
    have hfin : (0 : ℚ) + ((norm_phase1 segs).length : ℚ) * (1/2) ≤
        (norm_ctx segs duration analysis).duration := by
      rw [norm_phase1_length]
      simpa using hdur
    exact norm_loop_nonfinal_bounds hmode2 (norm_phase1 segs) 0 hfin

/-- Witness for the amended C3 on a concrete structure-driven input. -/
theorem normalize_bounds_amended_witness :
    nonfinal_bounds 10 (normalize_segments
      [mkSeg "a" (.num 0) (.num 4), mkSeg "b" (.num 4) (.num 10)] 10
      emptyAnalysis) :=
  normalize_bounds_amended _ 10 emptyAnalysis
    (by simp [timing_mode, emptyAnalysis]) (by norm_num)

/-! ## Structure-driven mode and structural boundaries (claim C6) -/

theorem norm_step_ideal_congr {μ : Type} {c1 c2 : NormCtx}
    (hd : c1.duration = c2.duration) (he : c1.effectiveMax = c2.effectiveMax)
    (hs : c1.scaleFactor = c2.scaleFactor) (seg : Segment μ) (n : ℕ) (ct : ℚ) :
    norm_step_ideal c1 seg n ct = norm_step_ideal c2 seg n ct := by
  simp only [norm_step_ideal, hd, he, hs]

theorem structure_mode_ne_beat {c : NormCtx}
    (hm : c.mode = TimingMode.structureDriven) :
    c.mode ≠ TimingMode.beatDriven := by
  rw [hm]
  intro hx
  cases hx

theorem norm_step_end_structure {μ : Type} {c : NormCtx}
    (hm : c.mode = TimingMode.structureDriven) (seg : Segment μ) (n : ℕ) (ct : ℚ) :
    norm_step_end c seg n ct =
      min (max (min (norm_step_ideal c seg n ct) (c.duration - (n : ℚ) * (1/2)))
        (ct + 1/2)) (c.duration - (n : ℚ) * (1/2)) := by
  simp only [norm_step_end, norm_step_raw,
    norm_step_current_of_ne_beat (structure_mode_ne_beat hm), hm]

theorem norm_loop_structure_congr {μ : Type} {c1 c2 : NormCtx}
    (h1 : c1.mode = TimingMode.structureDriven)
    (h2 : c2.mode = TimingMode.structureDriven)
    (hd : c1.duration = c2.duration) (he : c1.effectiveMax = c2.effectiveMax)
    (hs : c1.scaleFactor = c2.scaleFactor) :
    ∀ (l : List (Segment μ)) (ct : ℚ), norm_loop c1 l ct = norm_loop c2 l ct
  | [], _ => rfl
  | [seg], ct => by
    rw [norm_loop_single, norm_loop_single,
      norm_step_current_of_ne_beat (structure_mode_ne_beat h1),
      norm_step_current_of_ne_beat (structure_mode_ne_beat h2), hd]
  | seg :: b :: r, ct => by
    rw [norm_loop_cons2, norm_loop_cons2]
    have hend : norm_step_end c1 seg (b :: r).length ct =
        norm_step_end c2 seg (b :: r).length ct := by
      rw [norm_step_end_structure h1, norm_step_end_structure h2,
        norm_step_ideal_congr hd he hs, hd]
    rw [hend, norm_step_current_of_ne_beat (structure_mode_ne_beat h1),
      norm_step_current_of_ne_beat (structure_mode_ne_beat h2),
      norm_loop_structure_congr h1 h2 hd he hs (b :: r)]

theorem timing_mode_empty : timing_mode emptyAnalysis = TimingMode.structureDriven := by
  simp [timing_mode, emptyAnalysis]

/-- C6 amended: in structure-driven mode the normalizer does not snap to
structural boundaries at all — the entire analysis (structural scene
boundaries, beats, strengths, bpm) is ignored, and each non-final boundary is
`min(ideal_end, duration - remaining * MIN_DURATION)` followed by the safety
clamps.  Formally: the output equals the output on an empty analysis. -/
theorem structure_driven_ignores_analysis {μ : Type} (segs : List (Segment μ))
    (duration : ℚ) (analysis : Analysis)
    (hmode : timing_mode analysis = TimingMode.structureDriven) :
    normalize_segments segs duration analysis =
      normalize_segments segs duration emptyAnalysis := by
  by_cases h : segs = []
  · subst h
    rfl
  · rw [normalize_segments_of_ne h duration analysis,
      normalize_segments_of_ne h duration emptyAnalysis]
    congr 1
    exact norm_loop_structure_congr
      (show (norm_ctx segs duration analysis).mode = TimingMode.structureDriven from hmode)
      (show (norm_ctx segs duration emptyAnalysis).mode = TimingMode.structureDriven from
        timing_mode_empty)
      rfl rfl rfl (norm_phase1 segs) 0

def segs6 : List (Segment Unit) :=
  [mkSeg "a" (.num 0) (.num 4), mkSeg "b" (.num 4) (.num 10)]

/-- An analysis whose scene segments put a structural boundary at 4.2,
with no beat data, so the normalizer runs in structure-driven mode. -/
def analysis6 : Analysis :=
  { segments := [(.num 0, .num (21/5)), (.num (21/5), .num 10)],
    beat_times := [], beat_strengths := [], onset_times := [],
    beat_confidence := 0, bpm := 0 }

theorem timing_mode_analysis6 : timing_mode analysis6 = TimingMode.structureDriven := by
  simp [timing_mode, analysis6]

theorem c6_eval :
    (normalize_segments segs6 10 analysis6).map (fun s => (startQ s, endQ s)) =
      [(0, 4), (4, 10)] := by
  have hcongr : normalize_segments segs6 10 analysis6 =
      normalize_segments segs6 10 emptyAnalysis := by
    rw [normalize_segments_of_ne (by simp [segs6]) 10 analysis6,
      normalize_segments_of_ne (by simp [segs6]) 10 emptyAnalysis]
    exact congrArg chain_starts
      (norm_loop_structure_congr
        (show (norm_ctx segs6 10 analysis6).mode = TimingMode.structureDriven from
          timing_mode_analysis6)
        (show (norm_ctx segs6 10 emptyAnalysis).mode = TimingMode.structureDriven from
          timing_mode_empty)
        rfl rfl rfl (norm_phase1 segs6) 0)
  rw [hcongr]
  norm_num [normalize_segments, norm_ctx, norm_phase1, structural_points_of,
    segs6, mkSeg, emptyAnalysis, timing_mode,
    strength_pairs, sorted_unique, norm_loop, chain_starts, chain_starts_aux,
    norm_step_current, norm_step_end, norm_step_raw, norm_step_ideal,
    parse_time_num, startQ, endQ, min_def, max_def,
    show TimingMode.structureDriven ≠ TimingMode.beatDriven from by decide]

/-- C6 counterexample: for `segs6` over duration 10 with a structural boundary
at `4.2` (the boundaries `{0, 4.2, 10}` have median spacing well above the
`0.2` distance from `ideal_end = 4`), the claim predicts the first segment's
boundary snaps toward `4.2`; the code's structure-driven branch
(story_service.py:286) returns exactly `ideal_end = 4`, moving no closer to
the boundary. -/
theorem structure_snap_counterexample :
    endQ ((normalize_segments segs6 10 analysis6).getD 0 dummySeg) = 4 ∧
      ¬ (endQ ((normalize_segments segs6 10 analysis6).getD 0 dummySeg) = 21/5 ∨
        |endQ ((normalize_segments segs6 10 analysis6).getD 0 dummySeg) - 21/5| <
          |(4 : ℚ) - 21/5|) := by
  have hgd : endQ ((normalize_segments segs6 10 analysis6).getD 0 dummySeg) = 4 := by
    have hlen : (normalize_segments segs6 10 analysis6).length = 2 := by
      have h0 := congrArg List.length c6_eval
      simpa using h0
    have hl2 : 0 < (normalize_segments segs6 10 analysis6).length := by
      rw [hlen]
      norm_num
    have hseg : ((normalize_segments segs6 10 analysis6).map
        (fun s => (startQ s, endQ s))).getD 0 (0, 0) = (0, 4) := by
      rw [c6_eval]
      rfl
    rw [List.getD_eq_getElem _ _ (by simpa using hl2)] at hseg
    rw [List.getD_eq_getElem _ _ hl2]
    have := congrArg Prod.snd hseg
    simpa using this
  refine ⟨hgd, ?_⟩
  rw [hgd]
  push_neg
  exact ⟨by norm_num, le_refl _⟩

/-- Witness for the amended C6 at the concrete structure-driven input. -/
theorem structure_driven_ignores_analysis_witness :
    normalize_segments segs6 10 analysis6 =
      normalize_segments segs6 10 emptyAnalysis :=
  structure_driven_ignores_analysis segs6 10 analysis6 timing_mode_analysis6

/-! ## Crop safety (claim C2) -/

theorem pyInt_of_nonneg {x : ℚ} (h : 0 ≤ x) : pyInt x = ⌊x⌋ := by
  rw [pyInt, if_pos h]

theorem upscaled_ge_tw {ow oh tw th : ℕ} (h1 : 1 ≤ ow) (h3 : 1 ≤ tw) :
    tw ≤ (upscaled_size ow oh tw th).1 := by
  rw [upscaled_size]
  set sf : ℚ := max (max ((3/2 * (tw : ℚ)) / (ow : ℚ)) ((3/2 * (th : ℚ)) / (oh : ℚ))) 1
    with hsf
  have how : (0 : ℚ) < (ow : ℚ) := by
    exact_mod_cast h1
  have hsf1 : (3/2 * (tw : ℚ)) / (ow : ℚ) ≤ sf := le_max_of_le_left (le_max_left _ _)
  by_cases h : 1 < sf
  · rw [if_pos h]
    have hpos : (0 : ℚ) ≤ (ow : ℚ) * sf := by
      have : (0 : ℚ) ≤ sf := le_trans (by norm_num) (le_of_lt h)
      positivity
    simp only [pyInt_of_nonneg hpos]
    have hge : (3/2 * (tw : ℚ)) ≤ (ow : ℚ) * sf := by
      have := mul_le_mul_of_nonneg_left hsf1 (le_of_lt how)
      rwa [mul_div_cancel₀] at this
      exact ne_of_gt how
    have htwle : ((tw : ℤ) : ℚ) ≤ (ow : ℚ) * sf := by
      push_cast
      have : (tw : ℚ) ≤ 3/2 * (tw : ℚ) := by
        have : (0 : ℚ) ≤ (tw : ℚ) := by positivity
        linarith
      linarith
    have hfl : (tw : ℤ) ≤ ⌊(ow : ℚ) * sf⌋ := Int.le_floor.mpr htwle
    omega
  · rw [if_neg h]
    push_neg at h
    have : (3/2 * (tw : ℚ)) / (ow : ℚ) ≤ 1 := le_trans hsf1 h
    rw [div_le_one how] at this
    have htw : (tw : ℚ) ≤ (ow : ℚ) := by
      have h0 : (0 : ℚ) ≤ (tw : ℚ) := by positivity
      linarith
    exact_mod_cast htw

theorem upscaled_ge_th {ow oh tw th : ℕ} (h2 : 1 ≤ oh) (h4 : 1 ≤ th) :
    th ≤ (upscaled_size ow oh tw th).2 := by
  rw [upscaled_size]
  set sf : ℚ := max (max ((3/2 * (tw : ℚ)) / (ow : ℚ)) ((3/2 * (th : ℚ)) / (oh : ℚ))) 1
    with hsf
  have hoh : (0 : ℚ) < (oh : ℚ) := by
    exact_mod_cast h2
  have hsf1 : (3/2 * (th : ℚ)) / (oh : ℚ) ≤ sf := le_max_of_le_left (le_max_right _ _)
  by_cases h : 1 < sf
  · rw [if_pos h]
    have hpos : (0 : ℚ) ≤ (oh : ℚ) * sf := by
      have : (0 : ℚ) ≤ sf := le_trans (by norm_num) (le_of_lt h)
      positivity
    simp only [pyInt_of_nonneg hpos]
    have hge : (3/2 * (th : ℚ)) ≤ (oh : ℚ) * sf := by
      have := mul_le_mul_of_nonneg_left hsf1 (le_of_lt hoh)
      rwa [mul_div_cancel₀] at this
      exact ne_of_gt hoh
    have hthle : ((th : ℤ) : ℚ) ≤ (oh : ℚ) * sf := by
      push_cast
      have : (th : ℚ) ≤ 3/2 * (th : ℚ) := by
        have : (0 : ℚ) ≤ (th : ℚ) := by positivity
        linarith
      linarith
    have hfl : (th : ℤ) ≤ ⌊(oh : ℚ) * sf⌋ := Int.le_floor.mpr hthle
    omega
  · rw [if_neg h]
    push_neg at h
    have : (3/2 * (th : ℚ)) / (oh : ℚ) ≤ 1 := le_trans hsf1 h
    rw [div_le_one hoh] at this
    have hth : (th : ℚ) ≤ (oh : ℚ) := by
      have h0 : (0 : ℚ) ≤ (th : ℚ) := by positivity
      linarith
    exact_mod_cast hth

theorem max_crop_ge_one {w h tw th : ℚ} (htw : 1 ≤ tw) (hth : 1 ≤ th)
    (hwt : tw ≤ w) (hht : th ≤ h) :
    1 ≤ (max_crop w h tw th).1 ∧ 1 ≤ (max_crop w h tw th).2 := by
  have htw0 : (0 : ℚ) < tw := lt_of_lt_of_le one_pos htw
  have hth0 : (0 : ℚ) < th := lt_of_lt_of_le one_pos hth
  rw [max_crop]
  by_cases hb : tw / th < w / h
  · rw [if_pos hb]
    constructor
    · have : th ≤ h := hht
      have hge : tw ≤ h * (tw / th) := by
        rw [mul_div_assoc']
        rw [le_div_iff hth0]
        have := mul_le_mul_of_nonneg_right hht (le_of_lt htw0)
        calc tw * th = th * tw := by ring
        _ ≤ h * tw := by
            exact mul_le_mul_of_nonneg_right hht (le_of_lt htw0)
      linarith
    · linarith
  · rw [if_neg hb]
    constructor
    · linarith
    · have hge : th ≤ w * (th / tw) := by
        rw [mul_div_assoc']
        rw [le_div_iff htw0]
        calc th * tw = tw * th := by ring
        _ ≤ w * th := mul_le_mul_of_nonneg_right hwt (le_of_lt hth0)
      linarith

theorem shift_clamp_bounds (w : ℕ) (a b : ℤ) :
    0 ≤ (shift_clamp w a b).1 ∧ (shift_clamp w a b).2 ≤ (w : ℤ) := by
  simp only [shift_clamp]
  exact ⟨le_max_left _ _, min_le_left _ _⟩

theorem axis_center_fallback_bounds {w : ℕ} {mc : ℚ} (hw : 1 ≤ w) (hmc : 1 ≤ mc) :
    0 ≤ (axis_center_fallback w mc).1 ∧
      (axis_center_fallback w mc).1 < (axis_center_fallback w mc).2 ∧
      (axis_center_fallback w mc).2 ≤ (w : ℤ) := by
  simp only [axis_center_fallback]
  have hw1 : (1 : ℚ) ≤ (w : ℚ) := by exact_mod_cast hw
  have hc1 : (1 : ℚ) ≤ min (w : ℚ) mc := le_min hw1 hmc
  have hcw : min (w : ℚ) mc ≤ (w : ℚ) := min_le_left _ _
  have hnn : (0 : ℚ) ≤ ((w : ℚ) - min (w : ℚ) mc) / 2 := by
    have : min (w : ℚ) mc ≤ (w : ℚ) := hcw
    linarith
  rw [pyInt_of_nonneg hnn]
  set a : ℤ := ⌊((w : ℚ) - min (w : ℚ) mc) / 2⌋ with ha
  have ha0 : 0 ≤ a := Int.floor_nonneg.mpr hnn
  have hb : pyInt ((a : ℚ) + min (w : ℚ) mc) = a + ⌊min (w : ℚ) mc⌋ := by
    rw [pyInt_of_nonneg (by
      have : (0 : ℚ) ≤ (a : ℚ) := by exact_mod_cast ha0
      linarith), Int.floor_int_add]
  rw [hb]
  have hfc1 : 1 ≤ ⌊min (w : ℚ) mc⌋ := by
    rw [Int.le_floor]
    exact_mod_cast hc1
  refine ⟨ha0, by omega, ?_⟩
  have h1 : (a : ℚ) ≤ ((w : ℚ) - min (w : ℚ) mc) / 2 := Int.floor_le _
  have h2 : ((⌊min (w : ℚ) mc⌋ : ℤ) : ℚ) ≤ min (w : ℚ) mc := Int.floor_le _
  have : ((a + ⌊min (w : ℚ) mc⌋ : ℤ) : ℚ) ≤ (w : ℚ) := by
    push_cast
    push_cast at h1 h2
    linarith
  exact_mod_cast this

/-- C2 (crop safety): for every positive source and target size, every effect
tag, and arbitrary rational zoom level and eased progress `p` (in particular
the sinusoidal easing value for any `t` in `[0, duration]`, which always lies
in `[0, 1]`), the produced frame is exactly `tw x th` and the rectangle read
from the (possibly upscaled) `w x h` source lies entirely within
`[0, w] x [0, h]` and is nonempty — the degenerate-crop fallback produces a
valid centered cover crop. -/
theorem make_frame_safe (ow oh tw th : ℕ) (effect : String) (zoom p : ℚ)
    (h1 : 1 ≤ ow) (h2 : 1 ≤ oh) (h3 : 1 ≤ tw) (h4 : 1 ≤ th) :
    (make_frame ow oh tw th effect zoom p).1 = (tw, th) ∧
      crop_in_bounds (upscaled_size ow oh tw th).1 (upscaled_size ow oh tw th).2
        (make_frame ow oh tw th effect zoom p).2 := by
  refine ⟨rfl, ?_⟩
  have hwt := @upscaled_ge_tw ow oh tw th h1 h3
  have hht := @upscaled_ge_th ow oh tw th h2 h4
  have hw1 : 1 ≤ (upscaled_size ow oh tw th).1 := le_trans h3 hwt
  have hh1 : 1 ≤ (upscaled_size ow oh tw th).2 := le_trans h4 hht
  have hmc := @max_crop_ge_one ((upscaled_size ow oh tw th).1 : ℚ)
    ((upscaled_size ow oh tw th).2 : ℚ) (tw : ℚ) (th : ℚ)
    (by exact_mod_cast h3) (by exact_mod_cast h4)
    (by exact_mod_cast hwt) (by exact_mod_cast hht)
  show crop_in_bounds _ _ (make_frame_crop ow oh tw th effect zoom p)
  rw [make_frame_crop]
  simp only []
  split_ifs with hc1 hc2
  · -- first fallback applied, then second check claims it degenerate
    exfalso
    obtain ⟨hx0, hx1, hx2⟩ := axis_center_fallback_bounds hw1 hmc.1
    obtain ⟨hy0, hy1, hy2⟩ := axis_center_fallback_bounds hh1 hmc.2
    rcases hc2 with hcl | hcl
    · exact absurd hcl (not_le.mpr hx1)
    · exact absurd hcl (not_le.mpr hy1)
  · -- first fallback applied and kept
    obtain ⟨hx0, hx1, hx2⟩ := axis_center_fallback_bounds hw1 hmc.1
    obtain ⟨hy0, hy1, hy2⟩ := axis_center_fallback_bounds hh1 hmc.2
    exact ⟨hx0, hx1, hx2, hy0, hy1, hy2⟩
  · -- clamped coordinates kept by both checks
    push_neg at hc1
    exact ⟨(shift_clamp_bounds _ _ _).1, hc1.1, (shift_clamp_bounds _ _ _).2,
      (shift_clamp_bounds _ _ _).1, hc1.2, (shift_clamp_bounds _ _ _).2⟩

theorem make_frame_safe_witness :
    1 ≤ 1080 ∧ 1 ≤ 608 ∧ 1 ≤ 720 ∧ 1 ≤ 1280 ∧
      ((Clipmaker.make_frame 1080 608 720 1280 "zoom_in" (4/5) (1/3)).1 = (720, 1280) ∧
        Clipmaker.crop_in_bounds (Clipmaker.upscaled_size 1080 608 720 1280).1
          (Clipmaker.upscaled_size 1080 608 720 1280).2
          (Clipmaker.make_frame 1080 608 720 1280 "zoom_in" (4/5) (1/3)).2) :=
  ⟨by norm_num, by norm_num, by norm_num, by norm_num,
    make_frame_safe 1080 608 720 1280 "zoom_in" (4/5) (1/3)
      (by norm_num) (by norm_num) (by norm_num) (by norm_num)⟩

/-! ## Persistence ordering in `render` (claim C4) -/

/-- A segment whose `effect` is missing, so `_create_clips` resolves a random
effect and writes it back onto the record. -/
def c4seg : RSeg :=
  { seg_id := "s1", image_exists := true, start_time := TimeVal.num 0,
    end_time := TimeVal.num 2, effect := "", transition := none }

theorem c4_create_clips :
    create_clips (fun _ => "zoom_in") (fun _ => "fade") [c4seg] =
      ([{ seg_index := 0, duration := 2, effect := "zoom_in", transition := none }],
        [{ c4seg with effect := "zoom_in" }]) := by
  rw [create_clips, create_clips_loop]
  norm_num [c4seg, parse_time_num, create_clips_loop,
    show ("s1" : String) ≠ "" from by decide]

/-- C4 counterexample: a repository holding one segment with `effect` missing,
audio present, and a failing encode.  `render` reports the encoding error, yet
the stored segment list has already been replaced by the resolved one — the
write-back is *not* withheld until the render succeeds. -/
theorem render_atomicity_counterexample :
    (render_model [c4seg] true (fun _ => "zoom_in") (fun _ => "fade") false).2 =
        RenderOutcome.errEncode ∧
      (render_model [c4seg] true (fun _ => "zoom_in") (fun _ => "fade") false).1 ≠
        [c4seg] := by
  have h := c4_create_clips
  rw [render_model]
  simp only [h]
  refine ⟨by norm_num, ?_⟩
  intro hcontra
  norm_num at hcontra
  have : ({ c4seg with effect := "zoom_in" } : RSeg).effect = c4seg.effect := by
    rw [hcontra]
  simp [c4seg] at this

/-- C4 (corrected): `save_segments` (render_service.py:111) runs *before*
`write_videofile` (line 132).  The stored segment list therefore depends only
on whether the audio exists and whether any clip survived `_create_clips` —
not on whether encoding succeeds — and an encode failure leaves the resolved
`effect`/`transition` choices already persisted. -/
theorem render_saves_before_encode (segs : List RSeg) (ae : Bool)
    (ep tp : ℕ → String) (eo : Bool) :
    (render_model segs ae ep tp eo).1 =
        (if ae = true ∧ (create_clips ep tp segs).1 ≠ [] then
          (create_clips ep tp segs).2 else segs) ∧
      (render_model segs ae ep tp false).1 = (render_model segs ae ep tp true).1 := by
  constructor
  · cases ae with
    | false => simp [render_model]
    | true =>
      by_cases hr : (create_clips ep tp segs).1 = []
      · simp [render_model, hr]
      · cases eo with
        | false => simp [render_model, hr]
        | true => simp [render_model, hr]
  · cases ae with
    | false => simp [render_model]
    | true =>
      by_cases hr : (create_clips ep tp segs).1 = []
      · simp [render_model, hr]
      · simp [render_model, hr]

/-! ## Clip extension and timeline sync (claim C7) -/

/-- A segment `_create_clips` does not skip: truthy id, image present, and a
positive timeline duration (render_service.py:231–247). -/
def renderable (s : RSeg) : Prop :=
  s.seg_id ≠ "" ∧ s.image_exists = true ∧
    0 < parse_time s.end_time - parse_time s.start_time

/-- The segment list tiles the timeline from `t`: each start is the running
time and each segment hands its end to the next (the shape `_normalize_segments`
guarantees). -/
def chained : ℚ → List RSeg → Prop
  | _, [] => True
  | t, s :: rest => parse_time s.start_time = t ∧ chained (parse_time s.end_time) rest

/-- Duration relationship claimed for the generated clips: every non-final
clip is the segment's timeline duration extended by `transition_duration = 0.4`,
and the final clip is not extended. -/
def durations_spec : List ClipRec → List RSeg → Prop
  | [], [] => True
  | [c], [s] => c.duration = parse_time s.end_time - parse_time s.start_time
  | c :: cs, s :: ss =>
    c.duration = parse_time s.end_time - parse_time s.start_time + 2/5 ∧
      durations_spec cs ss
  | _, _ => False

/-- The clip the loop body builds for a non-skipped segment. -/
def clip_of (ep tp : ℕ → String) (s : RSeg) (rest : List RSeg) (i : ℕ) : ClipRec :=
  let d0 := parse_time s.end_time - parse_time s.start_time
  let d := if rest ≠ [] then d0 + 2/5 else d0
  let eff0 := if s.effect = "" then "random" else s.effect
  let effR := if eff0 = "random" then ep i else eff0
  let tr0 := s.transition.getD "random"
  let trR := if tr0 = "random" then tp i else tr0
  { seg_index := i, duration := d, effect := effR,
    transition := if 0 < i then some trR else none }

/-- The (possibly mutated) segment record the loop body emits. -/
def seg2_of (ep tp : ℕ → String) (s : RSeg) (i : ℕ) : RSeg :=
  let eff0 := if s.effect = "" then "random" else s.effect
  let effR := if eff0 = "random" then ep i else eff0
  let seg1 := if eff0 = "random" then { s with effect := effR } else s
  let tr0 := s.transition.getD "random"
  let trR := if tr0 = "random" then tp i else tr0
  if 0 < i ∧ tr0 = "random" then { seg1 with transition := some trR } else seg1

theorem create_clips_loop_cons_ok (ep tp : ℕ → String) (s : RSeg)
    (rest : List RSeg) (i : ℕ) (hs : renderable s) :
    create_clips_loop ep tp (s :: rest) i =
      (clip_of ep tp s rest i :: (create_clips_loop ep tp rest (i + 1)).1,
        seg2_of ep tp s i :: (create_clips_loop ep tp rest (i + 1)).2) := by
  have hneg : ¬(s.seg_id = "" ∨ ¬ s.image_exists = true ∨
      parse_time s.end_time - parse_time s.start_time ≤ 0) := by
    push_neg
    exact ⟨hs.1, hs.2.1, hs.2.2⟩
  rw [create_clips_loop, if_neg hneg]
  rfl

theorem create_clips_loop_durations (ep tp : ℕ → String) :
    ∀ segs : List RSeg, (∀ s ∈ segs, renderable s) → ∀ i : ℕ,
      durations_spec (create_clips_loop ep tp segs i).1 segs := by
  intro segs
  induction segs with
  | nil => intro _ i; exact trivial
  | cons s rest ih =>
    intro h i
    have hs : renderable s := h s (by simp)
    have hrest : ∀ x ∈ rest, renderable x := fun x hx => h x (by simp [hx])
    rw [create_clips_loop_cons_ok ep tp s rest i hs]
    cases rest with
    | nil =>
      show (clip_of ep tp s [] i).duration =
        parse_time s.end_time - parse_time s.start_time
      simp [clip_of]
    | cons s2 r2 =>
      have hs2 : renderable s2 := hrest s2 (by simp)
      have hih := ih hrest (i + 1)
      rw [create_clips_loop_cons_ok ep tp s2 r2 (i + 1) hs2] at hih ⊢
      refine ⟨?_, hih⟩
      simp [clip_of]

theorem create_clips_loop_starts (ep tp : ℕ → String) :
    ∀ (segs : List RSeg) (t : ℚ), (∀ s ∈ segs, renderable s) →
      chained t segs → ∀ i : ℕ,
      clip_starts (create_clips_loop ep tp segs i).1 t =
        segs.map fun s => parse_time s.start_time := by
  intro segs
  induction segs with
  | nil => intro t _ _ i; rfl
  | cons s rest ih =>
    intro t h hch i
    have hs : renderable s := h s (by simp)
    have hrest : ∀ x ∈ rest, renderable x := fun x hx => h x (by simp [hx])
    obtain ⟨hst, hch2⟩ := hch
    rw [create_clips_loop_cons_ok ep tp s rest i hs, clip_starts]
    cases rest with
    | nil =>
      simp [clip_starts, create_clips_loop, hst]
    | cons s2 r2 =>
      have hd : (clip_of ep tp s (s2 :: r2) i).duration =
          parse_time s.end_time - parse_time s.start_time + 2/5 := by
        simp [clip_of]
      have harg : t + (clip_of ep tp s (s2 :: r2) i).duration - 2/5 =
          parse_time s.end_time := by
        rw [hd, ← hst]; ring
      rw [harg]
      simp only [List.map_cons]
      rw [ih (parse_time s.end_time) hrest hch2 (i + 1), hst]
      rfl

/-- C7 (clip extension and sync): when every segment is renderable and the
list tiles the timeline from 0 (as the normalizer guarantees), every non-final
generated clip's duration is its segment's timeline duration plus
`transition_duration = 0.4`, the final clip is not extended, and under
concatenation with `padding = -0.4` each clip starts exactly at its segment's
start_time. -/
theorem clips_extended_and_synced (segs : List RSeg) (ep tp : ℕ → String)
    (hall : ∀ s ∈ segs, renderable s) (hch : chained 0 segs) :
    durations_spec (create_clips ep tp segs).1 segs ∧
      clip_starts (create_clips ep tp segs).1 0 =
        segs.map fun s => parse_time s.start_time :=
  ⟨create_clips_loop_durations ep tp segs hall 0,
    create_clips_loop_starts ep tp segs 0 hall hch 0⟩

def c7segA : RSeg :=
  { seg_id := "a", image_exists := true, start_time := TimeVal.num 0,
    end_time := TimeVal.num 2, effect := "zoom_in", transition := none }

def c7segB : RSeg :=
  { seg_id := "b", image_exists := true, start_time := TimeVal.num 2,
    end_time := TimeVal.num 5, effect := "pan_left", transition := some "fade" }

theorem clips_extended_and_synced_witness :
    (∀ s ∈ [c7segA, c7segB], renderable s) ∧ chained 0 [c7segA, c7segB] ∧
      (durations_spec
          (create_clips (fun _ => "x") (fun _ => "x") [c7segA, c7segB]).1
          [c7segA, c7segB] ∧
        clip_starts (create_clips (fun _ => "x") (fun _ => "x") [c7segA, c7segB]).1 0 =
          [c7segA, c7segB].map fun s => parse_time s.start_time) := by
  have h1 : ∀ s ∈ [c7segA, c7segB], renderable s := by
    intro s hs
    simp only [List.mem_cons, List.not_mem_nil, or_false] at hs
    rcases hs with rfl | rfl
    · exact ⟨by decide, by decide, by norm_num [c7segA, parse_time_num]⟩
    · exact ⟨by decide, by decide, by norm_num [c7segB, parse_time_num]⟩
  have h2 : chained 0 [c7segA, c7segB] := by
    refine ⟨?_, ?_, trivial⟩ <;> norm_num [c7segA, c7segB, parse_time_num]
  exact ⟨h1, h2,
    clips_extended_and_synced [c7segA, c7segB] (fun _ => "x") (fun _ => "x") h1 h2⟩

/-! ## Layout stability under karaoke re-renders (claim C8) -/

theorem render_go_geom (sw : ℤ) (aw : Option ℕ) :
    ∀ (ts : List TokP) (c : ℕ),
      (render_go sw aw ts c).map tokGeom =
        ts.map (fun t => (t.base.text, t.x, t.y, t.box)) := by
  intro ts
  induction ts with
  | nil => intro c; rfl
  | cons t ts ih => intro c; simp [render_go, tokGeom, ih]

theorem part_tokens_pad (font : FontModel) (pad : ℤ) (is_hl : Bool)
    (content : List Char) :
    ∀ b ∈ part_tokens font pad true is_hl content,
      b.total_width = b.width + 2 * pad := by
  intro b hb
  simp only [part_tokens, List.mem_map] at hb
  obtain ⟨w, hw, rfl⟩ := hb
  simp [Bool.or_true]
  ring

theorem line_tokens_pad (font : FontModel) (pad : ℤ) (line : List Char) :
    ∀ b ∈ line_tokens font pad true line, b.total_width = b.width + 2 * pad := by
  intro b hb
  simp only [line_tokens, List.mem_flatMap] at hb
  obtain ⟨p, _, hp⟩ := hb
  exact part_tokens_pad font pad p.1 p.2 b hp

theorem wrap_fold_flatten (mw sw : ℤ) :
    ∀ (ts : List TokB) (acc : List (List TokB)) (cur : List TokB) (w : ℤ),
      (wrap_fold mw sw acc cur w ts).1.flatten ++ (wrap_fold mw sw acc cur w ts).2 =
        acc.flatten ++ cur ++ ts := by
  intro ts
  induction ts with
  | nil => intro acc cur w; simp [wrap_fold]
  | cons t ts ih =>
    intro acc cur w
    rw [wrap_fold]
    split_ifs with h1 h2
    · rw [ih]
      simp
    · rw [ih]
      simp
    · rw [ih]
      push_neg at h2
      subst h2
      simp

theorem wrap_one_flatten (mw sw : ℤ) (toks : List TokB) :
    (wrap_one mw sw toks).flatten = toks := by
  rw [wrap_one]
  have h := wrap_fold_flatten mw sw toks [] [] 0
  simp only [List.flatten_nil, List.nil_append] at h
  by_cases hc : (wrap_fold mw sw [] [] 0 toks).2 = []
  · simp only [hc]
    simpa [hc] using h
  · simp only [if_pos hc]
    simpa using h

theorem position_go_base (th sw y : ℤ) :
    ∀ (x : ℚ) (line : List TokB),
      (position_go th sw y x line).map (fun p => p.base) = line := by
  intro x line
  induction line generalizing x with
  | nil => rfl
  | cons t ts ih => simp [position_go, ih]

theorem position_lines_base (align : String) (tw sw th sy : ℤ) :
    ∀ (ls : List (List TokB)) (y : ℤ),
      (position_lines align tw sw th sy ls y).flatten.map (fun p => p.base) =
        ls.flatten := by
  intro ls
  induction ls with
  | nil => intro y; rfl
  | cons line ls ih =>
    intro y
    simp only [position_lines, List.flatten_cons, List.map_append,
      position_go_base, ih]

theorem wrapped_flatten (font : FontModel) (mw pad sw : ℤ) :
    ∀ l : List (List Char),
      (l.flatMap (fun ls => wrap_one mw sw (line_tokens font pad true ls))).flatten =
        l.flatMap (fun ls => line_tokens font pad true ls) := by
  intro l
  induction l with
  | nil => rfl
  | cons x xs ih =>
    simp only [List.flatMap_cons, List.flatten_append, wrap_one_flatten, ih]

theorem layout_text_base (text : String) (font : FontModel) (mw : ℤ)
    (align : String) (pad : ℤ) :
    (layout_text text font mw align pad true).lines.flatten.map (fun p => p.base) =
      (split_on_char '\n' text.data).flatMap
        (fun ls => line_tokens font pad true ls) := by
  rw [layout_text]
  simp only []
  rw [position_lines_base, wrapped_flatten]

/-- C8 (layout stability): `_render_layout` is a pure function of the layout —
for any two active word indices the rendered tokens carry identical text,
positions and box rectangles (geometry does not depend on the active index) —
and in karaoke mode (`pad_all = true`) every laid-out token's reserved slot
width is its measured width plus `2 * highlight_padding`, so box sizes stay
constant across per-word re-renders. -/
theorem layout_stable (L : TextLayout) (sw : ℤ) (i j : ℕ) (text : String)
    (font : FontModel) (mw : ℤ) (align : String) (pad : ℤ) :
    (render_layout L sw (some i)).map tokGeom =
        (render_layout L sw (some j)).map tokGeom ∧
      (layout_text text font mw align pad true).lines.flatten.map
          (fun t => t.base.total_width) =
        (layout_text text font mw align pad true).lines.flatten.map
          (fun t => t.base.width + 2 * pad) := by
  constructor
  · rw [render_layout, render_layout, render_go_geom, render_go_geom]
  · apply List.map_congr_left
    intro t ht
    have hmem : t.base ∈
        (layout_text text font mw align pad true).lines.flatten.map
          (fun p => p.base) :=
      List.mem_map_of_mem _ ht
    rw [layout_text_base] at hmem
    rcases List.mem_flatMap.mp hmem with ⟨ls, _, hls⟩
    exact line_tokens_pad font pad ls t.base hls

end Clipmaker
